import Mathlib

/-!
# QPACKScheme: acknowledgment aggregation, frame flags and block decoding

A shallow embedding of `proxygen/lib/http/codec/compress/experimental/simulator/QPACKScheme.h`.

* `uint16_t` values are natural numbers below `65536`; `int32_t` values are
  integers, and the one `int32_t` addition of the file (`commitEpoch_ + 1`) is
  reduced to the `int32_t` range by `wrapInt32`.
* `std::deque<uint16_t>` is a `List Nat`, front of the deque first.
* `std::unique_ptr<Ack>` is an `Option Ack`, `none` being the null pointer.
* A failed `CHECK` is an `Except.error`.
* The collaborators whose code lives outside this file (`HPACKCodec`,
  `HPACKQueue`, `SimStreamingCallback`) are records of operations over an
  arbitrary state type.
-/

namespace proxygen.compress

/-! ## Machine integers -/

/-- Reduction of an integer to the range of `int32_t` (two's complement). -/
def wrapInt32 (x : Int) : Int := (x + 2147483648) % 4294967296 - 2147483648

/-! ## Collaborators -/

/-- The value object `FrameFlags`: one boolean. -/
structure FrameFlags where
  allowOOO : Bool
deriving DecidableEq, Repr

/-- The fields of `SimStats` written by the scheme. -/
structure SimStats where
  uncompressed : Nat
  compressed : Nat
  maxQueueBufferBytes : Nat
deriving DecidableEq, Repr

/-- The result of `HPACKCodec::getEncodedSize()`. -/
structure HTTPHeaderSize where
  uncompressed : Nat
  compressed : Nat
deriving DecidableEq, Repr

/-- The operations of `HPACKCodec` used on `client_`, over a codec state `κ`.
`encode` returns the new codec state, the encoded block (a list of bytes) and
the value it stored in the `eviction` out-parameter. -/
structure HPACKCodec (κ H : Type) where
  encode : κ → List H → κ × List Nat × Bool
  getEncodedSize : κ → HTTPHeaderSize
  setCommitEpoch : κ → Int → κ
  packetFlushed : κ → κ

/-- The operations of `HPACKQueue` used on `serverQueue_`, over a queue state
`Q` and a callback state `CB`. `enqueueHeaderBlock` receives the sequence
number, the block, its length, the callback and the `oooOk` flag. -/
structure HPACKQueue (Q CB : Type) where
  enqueueHeaderBlock : Q → Nat → List Nat → Nat → CB → Bool → Q × CB
  getQueuedBytes : Q → Nat
  getHolBlockCount : Q → Nat

/-- The operations of `SimStreamingCallback` used by `decode`. -/
structure SimStreamingCallback (CB : Type) where
  setSeqn : CB → Nat → CB
  maybeMarkHolDelay : CB → CB

/-! ## Acknowledgments -/

/-- The dynamic type of an object behind a `CompressionScheme::Ack` pointer:
either the scheme's own `QPACKAck`, carrying `seqn`, or some other subclass. -/
inductive Ack where
  | qpackAck (seqn : Nat)
  | otherAck
deriving DecidableEq, Repr

/-- The fatal checks of the file. -/
inductive CheckFailure where
  | ackIsNull
  | ackIsNotQPACKAck
  | queuedBytesNonZero
  | cursorOutOfRange
deriving DecidableEq, Repr

/-! ## The scheme object -/

/-- The data members of `QPACKScheme` (with `index` of the base class).
`serverQueue_` stands for the queue together with the `server_` codec it
wraps. -/
structure QPACKScheme (κ Q : Type) where
  client_ : κ
  serverQueue_ : Q
  acks_ : List Nat
  commitEpoch_ : Int
  index : Nat

namespace QPACKScheme

/-- The object right after construction: `acks_` empty and `commitEpoch_{-1}`;
`client` and `queue` are the configured codec and queue. -/
def initial {κ Q : Type} (client : κ) (queue : Q) : QPACKScheme κ Q :=
  { client_ := client, serverQueue_ := queue, acks_ := [], commitEpoch_ := -1, index := 0 }

/-- Every member holds a value of its declared type: `commitEpoch_` an
`int32_t`, every element of `acks_` a `uint16_t`. -/
def WellTyped {κ Q : Type} (st : QPACKScheme κ Q) : Prop :=
  (-2147483648 ≤ st.commitEpoch_ ∧ st.commitEpoch_ ≤ 2147483647) ∧ ∀ a ∈ st.acks_, a < 65536

instance {κ Q : Type} (st : QPACKScheme κ Q) : Decidable st.WellTyped := by
  unfold WellTyped; infer_instance

/-- The destructor: `CHECK_EQ(serverQueue_.getQueuedBytes(), 0)`. -/
def destroy {κ Q CB : Type} (SQ : HPACKQueue Q CB) (st : QPACKScheme κ Q) :
    Except CheckFailure Unit :=
  if SQ.getQueuedBytes st.serverQueue_ = 0 then .ok () else .error .queuedBytesNonZero

/-! ## recvAck -/

/-- The method `getAck(uint16_t seqn)`: a fresh `QPACKAck`; the argument is converted to
`uint16_t`. -/
def getAck (seqn : Nat) : Option Ack := some (Ack.qpackAck (seqn % 65536))

/-- The loop of `recvAck`:
`while (!acks_.empty() && acks_.front() == commitEpoch_ + 1)
   { commitEpoch_ = acks_.front(); acks_.pop_front(); }`
on the pair `(commitEpoch_, acks_)`. -/
def drainAcks : Int → List Nat → Int × List Nat
  | e, [] => (e, [])
  | e, a :: rest =>
    if (a : Int) = wrapInt32 (e + 1) then drainAcks (a : Int) rest else (e, a :: rest)

/-- The loop of `std::lower_bound` over `xs[first, first + len)`:
`while (len > 0) { half = len >> 1; middle = first + half;
   if (*middle < val) { first = middle + 1; len = len - half - 1; } else len = half; }`.
The first argument bounds the number of iterations. -/
def lowerBoundLoop (xs : List Nat) (val : Nat) : Nat → Nat → Nat → Nat
  | 0, first, _ => first
  | fuel + 1, first, len =>
    if len = 0 then first
    else
      let half := len / 2
      let middle := first + half
      if xs.getD middle 0 < val then lowerBoundLoop xs val fuel (middle + 1) (len - half - 1)
      else lowerBoundLoop xs val fuel first half

/-- The call `std::lower_bound(xs.begin(), xs.end(), val)`, as an index into `xs`. The
length of `xs` bounds the number of iterations, since `len` starts at that
length and decreases in every iteration. -/
def lower_bound (xs : List Nat) (val : Nat) : Nat :=
  lowerBoundLoop xs val xs.length 0 xs.length

/-- The call `std::deque::insert(pos, val)` with `pos` the iterator at index `i`. -/
def dequeInsert (xs : List Nat) (i : Nat) (val : Nat) : List Nat :=
  xs.take i ++ val :: xs.drop i

/-- The body of `recvAck` after its two checks, for a `QPACKAck` with sequence
number `seqn`. -/
def recvAckBody {κ Q H : Type} (C : HPACKCodec κ H) (st : QPACKScheme κ Q) (seqn : Nat) :
    QPACKScheme κ Q :=
  if (seqn : Int) = wrapInt32 (st.commitEpoch_ + 1) then
    let r := drainAcks (seqn : Int) st.acks_
    { st with commitEpoch_ := r.1, acks_ := r.2, client_ := C.setCommitEpoch st.client_ r.1 }
  else
    { st with acks_ := dequeInsert st.acks_ (lower_bound st.acks_ seqn) seqn }

/-- The method `recvAck(std::unique_ptr<Ack> ack)`: `CHECK(ack)`, then
`CHECK_NOTNULL(dynamic_cast<QPACKAck*>(ack.get()))`, then the body. -/
def recvAck {κ Q H : Type} (C : HPACKCodec κ H) (st : QPACKScheme κ Q) (ack : Option Ack) :
    Except CheckFailure (QPACKScheme κ Q) :=
  match ack with
  | none => .error .ackIsNull
  | some .otherAck => .error .ackIsNotQPACKAck
  | some (.qpackAck seqn) => .ok (recvAckBody C st seqn)

/-- The driver delivering the acks for the sequence numbers `l`, in order:
`recvAck(getAck(s))` for each `s`, stopping at the first failed check. -/
def recvAcks {κ Q H : Type} (C : HPACKCodec κ H) (st : QPACKScheme κ Q) :
    List Nat → Except CheckFailure (QPACKScheme κ Q)
  | [] => .ok st
  | s :: rest =>
    match recvAck C st (getAck s) with
    | .ok st1 => recvAcks C st1 rest
    | .error err => .error err

/-! ## encode and decode -/

/-- The method `encode(newPacket, allHeaders, stats)`: returns the flags and block, with
the updated object and statistics. -/
def encode {κ Q H : Type} (C : HPACKCodec κ H) (st : QPACKScheme κ Q) (_newPacket : Bool)
    (allHeaders : List H) (stats : SimStats) :
    (FrameFlags × List Nat) × QPACKScheme κ Q × SimStats :=
  let index1 := st.index + 1
  let r := C.encode st.client_ allHeaders
  let client1 := r.1
  let block := r.2.1
  let eviction := r.2.2
  let stats1 := { stats with uncompressed := stats.uncompressed + (C.getEncodedSize client1).uncompressed }
  let stats2 := { stats1 with compressed := stats1.compressed + (C.getEncodedSize client1).compressed }
  let flags : FrameFlags := { allowOOO := !eviction }
  ((flags, block), { st with index := index1, client_ := client1 }, stats2)

/-- The read `cursor.readBE<uint16_t>()` on the first two bytes of the block. -/
def readBE16 (b0 b1 : Nat) : Nat := (b0 % 256) * 256 + b1 % 256

/-- The method `decode(flags, encodedReq, stats, callback)`: returns the updated object,
statistics and callback. A block shorter than two bytes makes `readBE` throw. -/
def decode {κ Q CB : Type} (SQ : HPACKQueue Q CB) (K : SimStreamingCallback CB)
    (st : QPACKScheme κ Q) (flags : FrameFlags) (encodedReq : List Nat) (stats : SimStats)
    (callback : CB) : Except CheckFailure (QPACKScheme κ Q × SimStats × CB) :=
  match encodedReq with
  | b0 :: b1 :: rest =>
    let seqn := readBE16 b0 b1
    let callback1 := K.setSeqn callback seqn
    let len := rest.length
    let trimmed := (b0 :: b1 :: rest).drop 2
    let r := SQ.enqueueHeaderBlock st.serverQueue_ seqn trimmed len callback1 flags.allowOOO
    let callback2 := K.maybeMarkHolDelay r.2
    let stats1 :=
      if SQ.getQueuedBytes r.1 > stats.maxQueueBufferBytes then
        { stats with maxQueueBufferBytes := SQ.getQueuedBytes r.1 }
      else stats
    .ok ({ st with serverQueue_ := r.1 }, stats1, callback2)
  | _ => .error .cursorOutOfRange

/-- The method `getHolBlockCount()`: the queue's counter, passed through. -/
def getHolBlockCount {κ Q CB : Type} (SQ : HPACKQueue Q CB) (st : QPACKScheme κ Q) : Nat :=
  SQ.getHolBlockCount st.serverQueue_

/-! ## Predicates and concrete collaborators used in the statements -/

/-- The relation between the object and the list `seen` of sequence numbers
acknowledged so far, when these are pairwise distinct: the epoch lies in
`-1..65535`, every number up to the epoch was acknowledged, the epoch's
successor was not, and the deque holds, strictly ascending, exactly the
acknowledged numbers beyond the epoch's successor. -/
def AckInv {κ Q : Type} (seen : List Nat) (st : QPACKScheme κ Q) : Prop :=
  -1 ≤ st.commitEpoch_ ∧ st.commitEpoch_ ≤ 65535 ∧
  st.acks_.Sorted (· < ·) ∧
  (∀ k : Nat, (k : Int) ≤ st.commitEpoch_ → k ∈ seen) ∧
  (∀ x : Nat, x ∈ st.acks_ ↔ x ∈ seen ∧ st.commitEpoch_ + 1 < (x : Int)) ∧
  (∀ x ∈ seen, (x : Int) ≠ st.commitEpoch_ + 1)

/-- A codec without state, for concrete runs of `recvAck`. -/
def unitCodec : HPACKCodec Unit Unit :=
  { encode := fun _ _ => ((), [], false)
    getEncodedSize := fun _ => { uncompressed := 0, compressed := 0 }
    setCommitEpoch := fun _ _ => ()
    packetFlushed := fun _ => () }

/-- The object of a concrete run: stateless codec and queue, the given epoch
and deque. -/
def stateOf (commitEpoch : Int) (acks : List Nat) : QPACKScheme Unit Unit :=
  { client_ := (), serverQueue_ := (), acks_ := acks, commitEpoch_ := commitEpoch, index := 0 }

/-- The driver issuing one `encode` call per header set, in order, threading
the object and the statistics; it collects the returned flags and blocks. -/
def encodeAll {κ Q H : Type} (C : HPACKCodec κ H) (st : QPACKScheme κ Q) (stats : SimStats) :
    List (Bool × List H) → List (FrameFlags × List Nat)
  | [] => []
  | call :: rest =>
    let r := encode C st call.1 call.2 stats
    r.1 :: encodeAll C r.2.1 r.2.2 rest

/-- What the codec alone returns, block and eviction indicator, when it encodes
the header sets in order. -/
def codecResults {κ H : Type} (C : HPACKCodec κ H) (client : κ) :
    List (Bool × List H) → List (List Nat × Bool)
  | [] => []
  | call :: rest =>
    let r := C.encode client call.2
    r.2 :: codecResults C r.1 rest

/-- A codec following a script: its state is the list of eviction indicators
still to report, one per `encode` call (`false` once the script is used up). -/
def scriptedCodec (H : Type) : HPACKCodec (List Bool) H :=
  { encode := fun script _ => (script.tail, [], script.headD false)
    getEncodedSize := fun _ => { uncompressed := 0, compressed := 0 }
    setCommitEpoch := fun script _ => script
    packetFlushed := fun script => script }

/-- The arguments of one `enqueueHeaderBlock` call, the callback apart. -/
structure EnqueueCall where
  seqn : Nat
  block : List Nat
  len : Nat
  oooOk : Bool
deriving DecidableEq, Repr

/-- A queue that records its `enqueueHeaderBlock` calls, oldest first, and
counts as buffered the lengths it was given. -/
def recordingQueue (CB : Type) : HPACKQueue (List EnqueueCall) CB :=
  { enqueueHeaderBlock := fun q seqn block len cb oooOk =>
      (q ++ [{ seqn := seqn, block := block, len := len, oooOk := oooOk }], cb)
    getQueuedBytes := fun q => (q.map EnqueueCall.len).sum
    getHolBlockCount := fun _ => 0 }

/-- A callback without state. -/
def unitCallback : SimStreamingCallback Unit :=
  { setSeqn := fun _ _ => ()
    maybeMarkHolDelay := fun _ => () }

/-- The object of a concrete run of `decode`: a recording queue with no call
recorded yet. -/
def recordingState : QPACKScheme Unit (List EnqueueCall) :=
  { client_ := (), serverQueue_ := [], acks_ := [], commitEpoch_ := -1, index := 0 }

/-- Statistics with every counter at zero. -/
def zeroStats : SimStats := { uncompressed := 0, compressed := 0, maxQueueBufferBytes := 0 }

/-- A codec that logs its `setCommitEpoch` calls: its state is the list of the
values passed, oldest first. -/
def loggingCodec (H : Type) : HPACKCodec (List Int) H :=
  { encode := fun log _ => (log, [], false)
    getEncodedSize := fun _ => { uncompressed := 0, compressed := 0 }
    setCommitEpoch := fun log e => log ++ [e]
    packetFlushed := fun log => log }

/-- The object of a concrete run with the logging codec: the given log, epoch
and deque. -/
def loggedState (log : List Int) (commitEpoch : Int) (acks : List Nat) :
    QPACKScheme (List Int) Unit :=
  { client_ := log, serverQueue_ := (), acks_ := acks, commitEpoch_ := commitEpoch, index := 0 }

/-- A queue whose state is its buffered-byte count; every enqueued block adds
its length. -/
def countingQueue (CB : Type) : HPACKQueue Nat CB :=
  { enqueueHeaderBlock := fun q _ _ len cb _ => (q + len, cb)
    getQueuedBytes := fun q => q
    getHolBlockCount := fun _ => 0 }

/-- The object of a concrete run with the counting queue holding `queued`
bytes. -/
def queuedState (queued : Nat) : QPACKScheme Unit Nat :=
  { client_ := (), serverQueue_ := queued, acks_ := [], commitEpoch_ := -1, index := 0 }

/-! ## Arithmetic of the epoch comparison -/

lemma wrapInt32_range (x : Int) : -2147483648 ≤ wrapInt32 x ∧ wrapInt32 x ≤ 2147483647 := by
  unfold wrapInt32; omega

lemma wrapInt32_of_range {x : Int} (h1 : -2147483648 ≤ x) (h2 : x ≤ 2147483647) :
    wrapInt32 x = x := by
  unfold wrapInt32; omega

/-- A non-negative value equal to the wrapped successor of an `int32_t` is its
true successor. -/
lemma eq_succ_of_eq_wrap {a : Nat} {e : Int} (h1 : -2147483648 ≤ e) (h2 : e ≤ 2147483647)
    (h : (a : Int) = wrapInt32 (e + 1)) : (a : Int) = e + 1 := by
  unfold wrapInt32 at h; omega

lemma eq_wrap_iff {a : Nat} {e : Int} (ha : a < 65536) (h1 : -2147483648 ≤ e)
    (h2 : e ≤ 2147483647) : (a : Int) = wrapInt32 (e + 1) ↔ (a : Int) = e + 1 := by
  unfold wrapInt32; omega

/-! ## The drain loop -/

lemma drainAcks_nil (e : Int) : drainAcks e [] = (e, []) := rfl

lemma drainAcks_cons_eq {e : Int} {a : Nat} (rest : List Nat) (h : (a : Int) = wrapInt32 (e + 1)) :
    drainAcks e (a :: rest) = drainAcks (a : Int) rest := by
  simp [drainAcks, h]

lemma drainAcks_cons_ne {e : Int} {a : Nat} (rest : List Nat) (h : ¬ (a : Int) = wrapInt32 (e + 1)) :
    drainAcks e (a :: rest) = (e, a :: rest) := by
  simp [drainAcks, h]

/-- The loop never lowers the epoch. -/
lemma drainAcks_fst_ge (acks : List Nat) :
    ∀ e : Int, -2147483648 ≤ e → e ≤ 2147483647 → e ≤ (drainAcks e acks).1 := by
  induction acks with
  | nil => intro e _ _; simp [drainAcks]
  | cons a rest ih =>
    intro e h1 h2
    by_cases h : (a : Int) = wrapInt32 (e + 1)
    · rw [drainAcks_cons_eq rest h]
      have hr := wrapInt32_range (e + 1)
      have hs := eq_succ_of_eq_wrap h1 h2 h
      have := ih (a : Int) (by omega) (by omega)
      omega
    · rw [drainAcks_cons_ne rest h]

/-- The loop leaves a suffix of the deque. -/
lemma drainAcks_snd_suffix (acks : List Nat) :
    ∀ e : Int, (drainAcks e acks).2 <:+ acks := by
  induction acks with
  | nil => intro e; simp [drainAcks]
  | cons a rest ih =>
    intro e
    by_cases h : (a : Int) = wrapInt32 (e + 1)
    · rw [drainAcks_cons_eq rest h]
      exact (ih _).trans (List.suffix_cons a rest)
    · rw [drainAcks_cons_ne rest h]

/-- The epoch after the loop is bounded by the old epoch and the deque's
elements. -/
lemma drainAcks_fst_le (acks : List Nat) (B : Int) (hB : ∀ a ∈ acks, (a : Int) ≤ B) :
    ∀ e : Int, e ≤ B → (drainAcks e acks).1 ≤ B := by
  induction acks with
  | nil => intro e he; simpa [drainAcks] using he
  | cons a rest ih =>
    intro e he
    by_cases h : (a : Int) = wrapInt32 (e + 1)
    · rw [drainAcks_cons_eq rest h]
      exact ih (fun x hx => hB x (List.mem_cons_of_mem _ hx)) _ (hB a (List.mem_cons_self _ _))
    · rw [drainAcks_cons_ne rest h]; exact he

/-- The loop on a strictly ascending deque whose elements all exceed the epoch:
it consumes exactly the elements up to the new epoch, all numbers between the
old and the new epoch were in the deque, and what remains lies beyond the new
epoch plus one. -/
lemma drainAcks_spec (acks : List Nat) :
    ∀ e : Int, -2147483648 ≤ e → e ≤ 2147483647 → acks.Sorted (· < ·) →
      (∀ a ∈ acks, a < 65536) → (∀ a ∈ acks, e < (a : Int)) →
      e ≤ (drainAcks e acks).1 ∧
      (∀ k : Nat, e < (k : Int) → (k : Int) ≤ (drainAcks e acks).1 → k ∈ acks) ∧
      (∀ x : Nat, x ∈ (drainAcks e acks).2 ↔ x ∈ acks ∧ (drainAcks e acks).1 < (x : Int)) ∧
      (∀ x ∈ (drainAcks e acks).2, (drainAcks e acks).1 + 1 < (x : Int)) := by
  induction acks with
  | nil => intro e _ _ _ _ _; simp [drainAcks]
  | cons a rest ih =>
    intro e h1 h2 hs hb hgt
    have hs2 := List.sorted_cons.1 hs
    have hba := hb a (List.mem_cons_self _ _)
    by_cases h : (a : Int) = wrapInt32 (e + 1)
    · rw [drainAcks_cons_eq rest h]
      have hr := wrapInt32_range (e + 1)
      have hsucc := eq_succ_of_eq_wrap h1 h2 h
      obtain ⟨i1, i2, i3, i4⟩ := ih (a : Int) (by omega) (by omega) hs2.2
        (fun x hx => hb x (List.mem_cons_of_mem _ hx))
        (fun x hx => by have := hs2.1 x hx; omega)
      refine ⟨by omega, ?_, ?_, i4⟩
      · intro k hk1 hk2
        by_cases hka : k = a
        · subst hka; exact List.mem_cons_self _ _
        · exact List.mem_cons_of_mem _ (i2 k (by omega) hk2)
      · intro x
        rw [i3 x, List.mem_cons]
        constructor
        · rintro ⟨hx, hlt⟩; exact ⟨Or.inr hx, hlt⟩
        · rintro ⟨hx | hx, hlt⟩
          · subst hx; omega
          · exact ⟨hx, hlt⟩
    · rw [drainAcks_cons_ne rest h]
      have ha := hgt a (List.mem_cons_self _ _)
      have hne : ¬ (a : Int) = e + 1 := by
        intro h3; apply h; rw [wrapInt32_of_range (by omega) (by omega)]; exact h3
      refine ⟨le_refl _, ?_, ?_, ?_⟩
      · intro k hk1 hk2; omega
      · intro x
        constructor
        · intro hx; exact ⟨hx, hgt x hx⟩
        · rintro ⟨hx, _⟩; exact hx
      · intro x hx
        rcases List.mem_cons.1 hx with hx | hx
        · subst hx; show e + 1 < (x : Int); omega
        · have := hs2.1 x hx; show e + 1 < (x : Int); omega

/-! ## The binary search and the insertion -/

lemma lowerBoundLoop_le (xs : List Nat) (val : Nat) :
    ∀ fuel first len, lowerBoundLoop xs val fuel first len ≤ first + len := by
  intro fuel
  induction fuel with
  | zero => intro first len; simp [lowerBoundLoop]
  | succ n ih =>
    intro first len
    unfold lowerBoundLoop
    by_cases hlen : len = 0
    · simp [hlen]
    · simp only [hlen, if_false]
      split
      · have := ih (first + len / 2 + 1) (len - len / 2 - 1); omega
      · have := ih first (len / 2); omega

lemma lower_bound_le_length (xs : List Nat) (val : Nat) : lower_bound xs val ≤ xs.length := by
  have := lowerBoundLoop_le xs val xs.length 0 xs.length
  unfold lower_bound; omega

lemma sorted_mem_take_le {xs : List Nat} (hs : xs.Sorted (· ≤ ·)) {i : Nat} (hi : i < xs.length)
    {x : Nat} (hx : x ∈ xs.take (i + 1)) : x ≤ xs[i] := by
  obtain ⟨j, hj, rfl⟩ := List.mem_take_iff_getElem.1 hx
  have hj2 : j < xs.length := by omega
  rcases Nat.lt_or_ge j i with h | h
  · exact List.pairwise_iff_getElem.1 hs j i hj2 hi h
  · have : j = i := by omega
    subst this; exact le_refl _

lemma sorted_mem_drop_ge {xs : List Nat} (hs : xs.Sorted (· ≤ ·)) {i : Nat} (hi : i < xs.length)
    {x : Nat} (hx : x ∈ xs.drop i) : xs[i] ≤ x := by
  obtain ⟨j, hj, rfl⟩ := List.mem_drop_iff_getElem.1 hx
  rcases Nat.eq_zero_or_pos j with h | h
  · subst h; simp
  · exact List.pairwise_iff_getElem.1 hs i (i + j) hi (by omega) (by omega)

/-- On a sorted list the search keeps everything before `first` below `val`
and everything from `first + len` on at or above `val`. -/
lemma lowerBoundLoop_sorted {xs : List Nat} (hs : xs.Sorted (· ≤ ·)) (val : Nat) :
    ∀ fuel first len, len ≤ fuel → first + len ≤ xs.length →
      (∀ x ∈ xs.take first, x < val) → (∀ x ∈ xs.drop (first + len), val ≤ x) →
      (∀ x ∈ xs.take (lowerBoundLoop xs val fuel first len), x < val) ∧
      (∀ x ∈ xs.drop (lowerBoundLoop xs val fuel first len), val ≤ x) := by
  intro fuel
  induction fuel with
  | zero =>
    intro first len hf _ h1 h2
    have : len = 0 := by omega
    subst this
    exact ⟨by simpa [lowerBoundLoop] using h1, by simpa [lowerBoundLoop] using h2⟩
  | succ n ih =>
    intro first len hf hlen h1 h2
    unfold lowerBoundLoop
    by_cases h0 : len = 0
    · subst h0; simp only [if_true]; exact ⟨h1, by simpa using h2⟩
    · simp only [h0, if_false]
      have hmid : first + len / 2 < xs.length := by omega
      rw [List.getD_eq_getElem xs 0 hmid]
      split
      · rename_i hlt
        apply ih (first + len / 2 + 1) (len - len / 2 - 1) (by omega) (by omega)
        · intro x hx
          exact lt_of_le_of_lt (sorted_mem_take_le hs hmid hx) hlt
        · have : first + len / 2 + 1 + (len - len / 2 - 1) = first + len := by omega
          rw [this]; exact h2
      · rename_i hge
        apply ih first (len / 2) (by omega) (by omega) h1
        intro x hx
        exact le_trans (not_lt.1 hge) (sorted_mem_drop_ge hs hmid hx)

/-- On a sorted list `lower_bound` returns the partition point of `val`. -/
lemma lower_bound_sorted {xs : List Nat} (hs : xs.Sorted (· ≤ ·)) (val : Nat) :
    (∀ x ∈ xs.take (lower_bound xs val), x < val) ∧
    (∀ x ∈ xs.drop (lower_bound xs val), val ≤ x) := by
  unfold lower_bound
  apply lowerBoundLoop_sorted hs val xs.length 0 xs.length (le_refl _) (by omega)
  · simp
  · simp

lemma mem_dequeInsert (xs : List Nat) (i val x : Nat) :
    x ∈ dequeInsert xs i val ↔ x = val ∨ x ∈ xs := by
  unfold dequeInsert
  rw [List.mem_append, List.mem_cons]
  constructor
  · rintro (h | h | h)
    · exact Or.inr (List.mem_of_mem_take h)
    · exact Or.inl h
    · exact Or.inr (List.mem_of_mem_drop h)
  · rintro (h | h)
    · exact Or.inr (Or.inl h)
    · rw [← List.take_append_drop i xs, List.mem_append] at h
      rcases h with h | h
      · exact Or.inl h
      · exact Or.inr (Or.inr h)

lemma dequeInsert_perm (xs : List Nat) (i val : Nat) :
    (dequeInsert xs i val).Perm (val :: xs) := by
  unfold dequeInsert
  have h1 : (xs.take i ++ val :: xs.drop i).Perm (val :: (xs.take i ++ xs.drop i)) :=
    List.perm_middle
  rwa [List.take_append_drop] at h1

lemma length_dequeInsert (xs : List Nat) (i val : Nat) :
    (dequeInsert xs i val).length = xs.length + 1 := by
  simpa using (dequeInsert_perm xs i val).length_eq

/-- Insertion at `lower_bound` keeps a sorted deque sorted. -/
lemma dequeInsert_lower_bound_sorted {xs : List Nat} (hs : xs.Sorted (· ≤ ·)) (val : Nat) :
    (dequeInsert xs (lower_bound xs val) val).Sorted (· ≤ ·) := by
  obtain ⟨h1, h2⟩ := lower_bound_sorted hs val
  unfold dequeInsert
  refine List.pairwise_append.2 ⟨hs.sublist (List.take_sublist _ _), ?_, ?_⟩
  · exact List.pairwise_cons.2 ⟨h2, hs.sublist (List.drop_sublist _ _)⟩
  · intro a ha b hb
    rcases List.mem_cons.1 hb with hb | hb
    · subst hb; exact le_of_lt (h1 a ha)
    · exact le_trans (le_of_lt (h1 a ha)) (h2 b hb)

/-- Insertion of a new value at `lower_bound` keeps a strictly ascending deque
strictly ascending. -/
lemma dequeInsert_lower_bound_sorted_lt {xs : List Nat} (hs : xs.Sorted (· < ·)) {val : Nat}
    (hv : val ∉ xs) : (dequeInsert xs (lower_bound xs val) val).Sorted (· < ·) := by
  obtain ⟨h1, h2⟩ := lower_bound_sorted hs.le_of_lt val
  have h3 : ∀ x ∈ xs.drop (lower_bound xs val), val < x := by
    intro x hx
    have hne : val ≠ x := fun h => hv (h ▸ List.mem_of_mem_drop hx)
    exact lt_of_le_of_ne (h2 x hx) hne
  unfold dequeInsert
  refine List.pairwise_append.2 ⟨hs.sublist (List.take_sublist _ _), ?_, ?_⟩
  · exact List.pairwise_cons.2 ⟨h3, hs.sublist (List.drop_sublist _ _)⟩
  · intro a ha b hb
    rcases List.mem_cons.1 hb with hb | hb
    · subst hb; exact h1 a ha
    · exact lt_trans (h1 a ha) (h3 b hb)

/-! ## One call of recvAck -/

lemma recvAck_qpackAck {κ Q H : Type} (C : HPACKCodec κ H) (st : QPACKScheme κ Q) (s : Nat) :
    recvAck C st (some (Ack.qpackAck s)) = .ok (recvAckBody C st s) := rfl

lemma recvAck_getAck {κ Q H : Type} (C : HPACKCodec κ H) (st : QPACKScheme κ Q) {s : Nat}
    (hs : s < 65536) : recvAck C st (getAck s) = .ok (recvAckBody C st s) := by
  unfold getAck; rw [Nat.mod_eq_of_lt hs]; rfl

lemma recvAckBody_of_eq {κ Q H : Type} (C : HPACKCodec κ H) (st : QPACKScheme κ Q) {s : Nat}
    (h : (s : Int) = wrapInt32 (st.commitEpoch_ + 1)) :
    (recvAckBody C st s).commitEpoch_ = (drainAcks (s : Int) st.acks_).1 ∧
    (recvAckBody C st s).acks_ = (drainAcks (s : Int) st.acks_).2 ∧
    (recvAckBody C st s).client_ = C.setCommitEpoch st.client_ (drainAcks (s : Int) st.acks_).1 := by
  unfold recvAckBody; rw [if_pos h]; exact ⟨rfl, rfl, rfl⟩

lemma recvAckBody_of_ne {κ Q H : Type} (C : HPACKCodec κ H) (st : QPACKScheme κ Q) {s : Nat}
    (h : ¬ (s : Int) = wrapInt32 (st.commitEpoch_ + 1)) :
    (recvAckBody C st s).commitEpoch_ = st.commitEpoch_ ∧
    (recvAckBody C st s).acks_ = dequeInsert st.acks_ (lower_bound st.acks_ s) s ∧
    (recvAckBody C st s).client_ = st.client_ := by
  unfold recvAckBody; rw [if_neg h]; exact ⟨rfl, rfl, rfl⟩

/-- One call never lowers the epoch. -/
lemma recvAckBody_commitEpoch_ge {κ Q H : Type} (C : HPACKCodec κ H) (st : QPACKScheme κ Q)
    (hst : st.WellTyped) (s : Nat) : st.commitEpoch_ ≤ (recvAckBody C st s).commitEpoch_ := by
  obtain ⟨⟨h1, h2⟩, _⟩ := hst
  by_cases h : (s : Int) = wrapInt32 (st.commitEpoch_ + 1)
  · rw [(recvAckBody_of_eq C st h).1]
    have hr := wrapInt32_range (st.commitEpoch_ + 1)
    have hsucc := eq_succ_of_eq_wrap h1 h2 h
    have := drainAcks_fst_ge st.acks_ (s : Int) (by omega) (by omega)
    omega
  · rw [(recvAckBody_of_ne C st h).1]

/-- One call with a 16-bit sequence number keeps every member within its type. -/
lemma recvAckBody_wellTyped {κ Q H : Type} (C : HPACKCodec κ H) (st : QPACKScheme κ Q)
    (hst : st.WellTyped) {s : Nat} (hs : s < 65536) : (recvAckBody C st s).WellTyped := by
  obtain ⟨⟨h1, h2⟩, h3⟩ := hst
  by_cases h : (s : Int) = wrapInt32 (st.commitEpoch_ + 1)
  · obtain ⟨e1, e2, _⟩ := recvAckBody_of_eq C st h
    unfold WellTyped
    rw [e1, e2]
    have hge := drainAcks_fst_ge st.acks_ (s : Int) (by omega) (by omega)
    have hle := drainAcks_fst_le st.acks_ 65535
      (fun a ha => by have := h3 a ha; omega) (s : Int) (by omega)
    refine ⟨⟨by omega, by omega⟩, ?_⟩
    intro a ha
    exact h3 a ((drainAcks_snd_suffix st.acks_ (s : Int)).subset ha)
  · obtain ⟨e1, e2, _⟩ := recvAckBody_of_ne C st h
    unfold WellTyped
    rw [e1, e2]
    refine ⟨⟨h1, h2⟩, ?_⟩
    intro a ha
    rcases (mem_dequeInsert _ _ _ _).1 ha with ha | ha
    · omega
    · exact h3 a ha

/-! ## Sequences of calls -/

lemma recvAcks_eq_foldl {κ Q H : Type} (C : HPACKCodec κ H) (l : List Nat) :
    ∀ st : QPACKScheme κ Q, (∀ s ∈ l, s < 65536) →
      recvAcks C st l = .ok (l.foldl (recvAckBody C) st) := by
  induction l with
  | nil => intro st _; rfl
  | cons s rest ih =>
    intro st hb
    have hs := hb s (List.mem_cons_self _ _)
    simp only [recvAcks, recvAck_getAck C st hs, List.foldl_cons]
    exact ih _ (fun x hx => hb x (List.mem_cons_of_mem _ hx))

lemma foldl_recvAckBody_wellTyped {κ Q H : Type} (C : HPACKCodec κ H) (l : List Nat) :
    ∀ st : QPACKScheme κ Q, st.WellTyped → (∀ s ∈ l, s < 65536) →
      (l.foldl (recvAckBody C) st).WellTyped := by
  induction l with
  | nil => intro st h _; exact h
  | cons s rest ih =>
    intro st h hb
    rw [List.foldl_cons]
    exact ih _ (recvAckBody_wellTyped C st h (hb s (List.mem_cons_self _ _)))
      (fun x hx => hb x (List.mem_cons_of_mem _ hx))

lemma foldl_recvAckBody_commitEpoch_ge {κ Q H : Type} (C : HPACKCodec κ H) (l : List Nat) :
    ∀ st : QPACKScheme κ Q, st.WellTyped → (∀ s ∈ l, s < 65536) →
      st.commitEpoch_ ≤ (l.foldl (recvAckBody C) st).commitEpoch_ := by
  induction l with
  | nil => intro st _ _; exact le_refl _
  | cons s rest ih =>
    intro st h hb
    rw [List.foldl_cons]
    exact le_trans (recvAckBody_commitEpoch_ge C st h s)
      (ih _ (recvAckBody_wellTyped C st h (hb s (List.mem_cons_self _ _)))
        (fun x hx => hb x (List.mem_cons_of_mem _ hx)))

/-! ## Pairwise distinct acknowledgments -/

lemma ackInv_initial {κ Q : Type} (client : κ) (queue : Q) :
    AckInv [] (initial client queue) := by
  refine ⟨by simp [initial], by simp [initial], by simp [initial], ?_, ?_, ?_⟩
  · intro k hk; simp [initial] at hk; omega
  · intro x; simp [initial]
  · intro x hx; simp at hx

/-- A call with a sequence number not acknowledged before keeps the relation. -/
lemma ackInv_step {κ Q H : Type} (C : HPACKCodec κ H) (seen : List Nat) (st : QPACKScheme κ Q)
    (hinv : AckInv seen st) (hseen : ∀ x ∈ seen, x < 65536) {s : Nat} (hs : s < 65536)
    (hnew : s ∉ seen) : AckInv (seen ++ [s]) (recvAckBody C st s) := by
  obtain ⟨h1, h2, hsort, hlow, hmem, hsucc⟩ := hinv
  have hgt : st.commitEpoch_ < (s : Int) := by
    by_contra hc
    exact hnew (hlow s (by omega))
  have hbnd : ∀ a ∈ st.acks_, a < 65536 := fun a ha => hseen a ((hmem a).1 ha).1
  by_cases h : (s : Int) = wrapInt32 (st.commitEpoch_ + 1)
  · obtain ⟨e1, e2, _⟩ := recvAckBody_of_eq C st h
    have hs1 : (s : Int) = st.commitEpoch_ + 1 := eq_succ_of_eq_wrap (by omega) (by omega) h
    obtain ⟨i1, i2, i3, i4⟩ := drainAcks_spec st.acks_ (s : Int) (by omega) (by omega) hsort hbnd
      (fun a ha => by have := ((hmem a).1 ha).2; omega)
    have hle := drainAcks_fst_le st.acks_ 65535
      (fun a ha => by have := hbnd a ha; omega) (s : Int) (by omega)
    unfold AckInv
    rw [e1, e2]
    refine ⟨by omega, hle, ?_, ?_, ?_, ?_⟩
    · exact hsort.sublist (drainAcks_snd_suffix st.acks_ (s : Int)).sublist
    · intro k hk
      rw [List.mem_append, List.mem_singleton]
      rcases lt_trichotomy (k : Int) (s : Int) with hlt | heq | hgt2
      · exact Or.inl (hlow k (by omega))
      · exact Or.inr (by exact_mod_cast heq)
      · exact Or.inl ((hmem k).1 (i2 k hgt2 hk)).1
    · intro x
      rw [List.mem_append, List.mem_singleton]
      constructor
      · intro hx
        exact ⟨Or.inl ((hmem x).1 ((i3 x).1 hx).1).1, i4 x hx⟩
      · rintro ⟨hx | hx, hlt⟩
        · exact (i3 x).2 ⟨(hmem x).2 ⟨hx, by omega⟩, by omega⟩
        · subst hx; omega
    · intro x hx heq
      rw [List.mem_append, List.mem_singleton] at hx
      rcases hx with hx | hx
      · have hxa : x ∈ st.acks_ := (hmem x).2 ⟨hx, by omega⟩
        have := i4 x ((i3 x).2 ⟨hxa, by omega⟩)
        omega
      · subst hx; omega
  · obtain ⟨e1, e2, _⟩ := recvAckBody_of_ne C st h
    have hne : ¬ (s : Int) = st.commitEpoch_ + 1 := by
      intro h3; exact h ((eq_wrap_iff hs (by omega) (by omega)).2 h3)
    have hnotin : s ∉ st.acks_ := fun hc => hnew ((hmem s).1 hc).1
    unfold AckInv
    rw [e1, e2]
    refine ⟨h1, h2, dequeInsert_lower_bound_sorted_lt hsort hnotin, ?_, ?_, ?_⟩
    · intro k hk; exact List.mem_append_left _ (hlow k hk)
    · intro x
      rw [mem_dequeInsert, hmem x, List.mem_append, List.mem_singleton]
      constructor
      · rintro (hx | ⟨hx, hlt⟩)
        · subst hx; exact ⟨Or.inr rfl, by omega⟩
        · exact ⟨Or.inl hx, hlt⟩
      · rintro ⟨hx | hx, hlt⟩
        · exact Or.inr ⟨hx, hlt⟩
        · exact Or.inl hx
    · intro x hx
      rw [List.mem_append, List.mem_singleton] at hx
      rcases hx with hx | hx
      · exact hsucc x hx
      · subst hx; exact hne

lemma ackInv_foldl {κ Q H : Type} (C : HPACKCodec κ H) (l : List Nat) :
    ∀ (seen : List Nat) (st : QPACKScheme κ Q), AckInv seen st → (seen ++ l).Nodup →
      (∀ x ∈ seen ++ l, x < 65536) → AckInv (seen ++ l) (l.foldl (recvAckBody C) st) := by
  induction l with
  | nil => intro seen st h _ _; simpa using h
  | cons s rest ih =>
    intro seen st h hd hb
    have e : seen ++ s :: rest = (seen ++ [s]) ++ rest := by simp
    rw [e] at hd hb ⊢
    rw [List.foldl_cons]
    have hd2 : (seen ++ [s]).Nodup := (List.nodup_append.1 hd).1
    have hnew : s ∉ seen := by
      intro hc
      have := (List.nodup_append.1 hd2).2.2
      exact List.disjoint_left.1 this hc (List.mem_singleton_self s)
    apply ih (seen ++ [s]) _ _ hd hb
    apply ackInv_step C seen st h (fun x hx => hb x (by simp [hx]))
      (hb s (by simp)) hnew

/-- The state reached from the initial one by pairwise distinct 16-bit
acknowledgments satisfies the relation with the whole list. -/
lemma ackInv_of_distinct {κ Q H : Type} (C : HPACKCodec κ H) (client : κ) (queue : Q)
    (l : List Nat) (hd : l.Nodup) (hb : ∀ s ∈ l, s < 65536) :
    AckInv l (l.foldl (recvAckBody C) (initial client queue)) := by
  have := ackInv_foldl C l [] (initial client queue) (ackInv_initial client queue)
    (by simpa using hd) (by simpa using hb)
  simpa using this

/-- Under the relation the deque is the ascending enumeration of the acknowledged
numbers beyond the epoch. -/
lemma ackInv_acks_eq {κ Q : Type} {seen : List Nat} {st : QPACKScheme κ Q}
    (hinv : AckInv seen st) (hseen : ∀ x ∈ seen, x < 65536) :
    st.acks_ = (List.range 65536).filter
      (fun s => decide (s ∈ seen ∧ st.commitEpoch_ < (s : Int))) := by
  obtain ⟨h1, h2, hsort, hlow, hmem, hsucc⟩ := hinv
  have hs2 : ((List.range 65536).filter
      (fun s => decide (s ∈ seen ∧ st.commitEpoch_ < (s : Int)))).Sorted (· < ·) :=
    (List.sorted_lt_range 65536).filter _
  apply List.eq_of_perm_of_sorted _ hsort hs2
  rw [List.perm_ext_iff_of_nodup hsort.nodup hs2.nodup]
  intro x
  rw [hmem x, List.mem_filter, List.mem_range]
  simp only [decide_eq_true_eq]
  constructor
  · rintro ⟨hx, hlt⟩; exact ⟨hseen x hx, hx, by omega⟩
  · rintro ⟨_, hx, hlt⟩
    refine ⟨hx, ?_⟩
    have := hsucc x hx
    omega

/-! ## Sortedness for arbitrary acknowledgments -/

lemma sublist_dequeInsert (xs : List Nat) (i val : Nat) : xs.Sublist (dequeInsert xs i val) := by
  unfold dequeInsert
  have h : (xs.take i ++ xs.drop i).Sublist (xs.take i ++ val :: xs.drop i) :=
    List.Sublist.append (List.Sublist.refl _) (List.sublist_cons_self _ _)
  rwa [List.take_append_drop] at h

/-- One call keeps a sorted deque sorted, whatever the sequence number. -/
lemma recvAckBody_sorted {κ Q H : Type} (C : HPACKCodec κ H) (st : QPACKScheme κ Q)
    (hs : st.acks_.Sorted (· ≤ ·)) (s : Nat) : (recvAckBody C st s).acks_.Sorted (· ≤ ·) := by
  by_cases h : (s : Int) = wrapInt32 (st.commitEpoch_ + 1)
  · rw [(recvAckBody_of_eq C st h).2.1]
    exact hs.sublist (drainAcks_snd_suffix st.acks_ (s : Int)).sublist
  · rw [(recvAckBody_of_ne C st h).2.1]
    exact dequeInsert_lower_bound_sorted hs s

lemma foldl_recvAckBody_sorted {κ Q H : Type} (C : HPACKCodec κ H) (l : List Nat) :
    ∀ st : QPACKScheme κ Q, st.acks_.Sorted (· ≤ ·) →
      (l.foldl (recvAckBody C) st).acks_.Sorted (· ≤ ·) := by
  induction l with
  | nil => intro st h; exact h
  | cons s rest ih =>
    intro st h
    rw [List.foldl_cons]
    exact ih _ (recvAckBody_sorted C st h s)

/-! ## Claims about recvAck -/

/-- C1: from the initial state, after acks with pairwise distinct 16-bit sequence
numbers `l`, every call returns, the epoch is the highest `n` with all of `0..n`
in `l` (it is `-1` when `0` is absent), and the pending deque is the ascending
list of the numbers of `l` above the epoch. -/
theorem recvAcks_distinct_commitEpoch_pending {κ Q H : Type} (C : HPACKCodec κ H) (client : κ)
    (queue : Q) (l : List Nat) (hd : l.Nodup) (hb : ∀ s ∈ l, s < 65536) :
    ∃ st, recvAcks C (initial client queue) l = .ok st ∧
      -1 ≤ st.commitEpoch_ ∧
      (∀ k : Nat, (k : Int) ≤ st.commitEpoch_ → k ∈ l) ∧
      (∀ n : Int, (∀ k : Nat, (k : Int) ≤ n → k ∈ l) → n ≤ st.commitEpoch_) ∧
      (0 ∉ l → st.commitEpoch_ = -1) ∧
      st.acks_ = (List.range 65536).filter
        (fun s : Nat => decide (s ∈ l ∧ st.commitEpoch_ < (s : Int))) := by
  refine ⟨_, recvAcks_eq_foldl C l _ hb, ?_⟩
  have hinv := ackInv_of_distinct C client queue l hd hb
  have hacks := ackInv_acks_eq hinv hb
  obtain ⟨h1, h2, hsort, hlow, hmem, hsucc⟩ := hinv
  have hmax : ∀ n : Int, (∀ k : Nat, (k : Int) ≤ n → k ∈ l) →
      n ≤ (l.foldl (recvAckBody C) (initial client queue)).commitEpoch_ := by
    intro n hn
    by_contra hc
    have hk := hn ((l.foldl (recvAckBody C) (initial client queue)).commitEpoch_ + 1).toNat
      (by omega)
    exact hsucc _ hk (by omega)
  refine ⟨h1, hlow, hmax, ?_, hacks⟩
  intro h0
  by_contra hc
  exact h0 (hlow 0 (by omega))

/-- Witness for C1 at the acks `2, 0, 1, 5`. -/
theorem recvAcks_distinct_commitEpoch_pending_witness :
    [2, 0, 1, 5].Nodup ∧ (∀ s ∈ [2, 0, 1, 5], s < 65536) ∧
    ∃ st, recvAcks unitCodec (initial () ()) [2, 0, 1, 5] = .ok st ∧
      -1 ≤ st.commitEpoch_ ∧
      (∀ k : Nat, (k : Int) ≤ st.commitEpoch_ → k ∈ [2, 0, 1, 5]) ∧
      (∀ n : Int, (∀ k : Nat, (k : Int) ≤ n → k ∈ [2, 0, 1, 5]) → n ≤ st.commitEpoch_) ∧
      (0 ∉ [2, 0, 1, 5] → st.commitEpoch_ = -1) ∧
      st.acks_ = (List.range 65536).filter
        (fun s : Nat => decide (s ∈ [2, 0, 1, 5] ∧ st.commitEpoch_ < (s : Int))) :=
  ⟨by decide, by decide,
    recvAcks_distinct_commitEpoch_pending unitCodec () () [2, 0, 1, 5] (by decide) (by decide)⟩

/-- C2, as stated, fails: the single ack `1` is a permutation of `1..1`, and
after it the epoch is still `-1` and `1` is pending. -/
theorem recvAcks_perm_from_one_counterexample :
    [1].Perm (List.range' 1 1) ∧
    ∃ st, recvAcks unitCodec (initial () ()) [1] = .ok st ∧
      st.commitEpoch_ = -1 ∧ st.acks_ = [1] ∧ st.commitEpoch_ ≠ 1 ∧ st.acks_ ≠ [] :=
  ⟨by decide, _, rfl, rfl, rfl, by decide, by decide⟩

/-- C2, amended: from the initial state, after acks whose sequence numbers are a
permutation of `0..N` (with `N ≤ 65535`), in any order, the epoch is `N` and the
pending deque is empty. -/
theorem recvAcks_perm_from_zero {κ Q H : Type} (C : HPACKCodec κ H) (client : κ) (queue : Q)
    (N : Nat) (hN : N < 65536) (l : List Nat) (hp : l.Perm (List.range (N + 1))) :
    ∃ st, recvAcks C (initial client queue) l = .ok st ∧
      st.commitEpoch_ = (N : Int) ∧ st.acks_ = [] := by
  have hmemr : ∀ x, x ∈ l ↔ x < N + 1 := fun x => by rw [hp.mem_iff, List.mem_range]
  have hb : ∀ s ∈ l, s < 65536 := fun x hx => by have := (hmemr x).1 hx; omega
  have hd : l.Nodup := hp.nodup_iff.2 (List.nodup_range _)
  refine ⟨_, recvAcks_eq_foldl C l _ hb, ?_⟩
  obtain ⟨h1, h2, hsort, hlow, hmem, hsucc⟩ := ackInv_of_distinct C client queue l hd hb
  have hge : (N : Int) ≤ (l.foldl (recvAckBody C) (initial client queue)).commitEpoch_ := by
    by_contra hc
    have hk : ((l.foldl (recvAckBody C) (initial client queue)).commitEpoch_ + 1).toNat ∈ l :=
      (hmemr _).2 (by omega)
    exact hsucc _ hk (by omega)
  have hle : (l.foldl (recvAckBody C) (initial client queue)).commitEpoch_ ≤ (N : Int) := by
    have hk := hlow (l.foldl (recvAckBody C) (initial client queue)).commitEpoch_.toNat (by omega)
    have := (hmemr _).1 hk
    omega
  refine ⟨le_antisymm hle hge, ?_⟩
  apply List.eq_nil_iff_forall_not_mem.2
  intro x hx
  obtain ⟨hxl, hlt⟩ := (hmem x).1 hx
  have := (hmemr x).1 hxl
  omega

/-- Witness for amended C2 at `N = 3` with the order `2, 0, 3, 1`. -/
theorem recvAcks_perm_from_zero_witness :
    3 < 65536 ∧ [2, 0, 3, 1].Perm (List.range (3 + 1)) ∧
    ∃ st, recvAcks unitCodec (initial () ()) [2, 0, 3, 1] = .ok st ∧
      st.commitEpoch_ = ((3 : Nat) : Int) ∧ st.acks_ = [] :=
  ⟨by decide, by decide,
    recvAcks_perm_from_zero unitCodec () () 3 (by decide) [2, 0, 3, 1] (by decide)⟩

/-- C3: for every state and every ack of the scheme with a 16-bit sequence
number, the call returns and the epoch after it is at least the epoch before;
along every sequence of such acks the epoch after a longer prefix is at least
the epoch after a shorter one. -/
theorem recvAck_commitEpoch_nondecreasing {κ Q H : Type} (C : HPACKCodec κ H)
    (st : QPACKScheme κ Q) (hst : st.WellTyped) :
    (∀ s : Nat, s < 65536 →
      ∃ st1, recvAck C st (some (Ack.qpackAck s)) = .ok st1 ∧
        st.commitEpoch_ ≤ st1.commitEpoch_) ∧
    (∀ l1 l2 : List Nat, (∀ s ∈ l1 ++ l2, s < 65536) →
      ∃ st1 st2, recvAcks C st l1 = .ok st1 ∧ recvAcks C st (l1 ++ l2) = .ok st2 ∧
        st.commitEpoch_ ≤ st1.commitEpoch_ ∧ st1.commitEpoch_ ≤ st2.commitEpoch_) := by
  constructor
  · intro s _
    exact ⟨_, rfl, recvAckBody_commitEpoch_ge C st hst s⟩
  · intro l1 l2 hb
    have hb1 : ∀ s ∈ l1, s < 65536 := fun x hx => hb x (List.mem_append_left _ hx)
    have hb2 : ∀ s ∈ l2, s < 65536 := fun x hx => hb x (List.mem_append_right _ hx)
    refine ⟨_, _, recvAcks_eq_foldl C l1 st hb1, recvAcks_eq_foldl C (l1 ++ l2) st hb, ?_, ?_⟩
    · exact foldl_recvAckBody_commitEpoch_ge C l1 st hst hb1
    · rw [List.foldl_append]
      exact foldl_recvAckBody_commitEpoch_ge C l2 _
        (foldl_recvAckBody_wellTyped C l1 st hst hb1) hb2

/-- Witness for C3 at the state with epoch `1` and pending `3, 4`. -/
theorem recvAck_commitEpoch_nondecreasing_witness :
    (stateOf 1 [3, 4]).WellTyped ∧
    ((∀ s : Nat, s < 65536 →
      ∃ st1, recvAck unitCodec (stateOf 1 [3, 4]) (some (Ack.qpackAck s)) = .ok st1 ∧
        (stateOf 1 [3, 4]).commitEpoch_ ≤ st1.commitEpoch_) ∧
    (∀ l1 l2 : List Nat, (∀ s ∈ l1 ++ l2, s < 65536) →
      ∃ st1 st2, recvAcks unitCodec (stateOf 1 [3, 4]) l1 = .ok st1 ∧
        recvAcks unitCodec (stateOf 1 [3, 4]) (l1 ++ l2) = .ok st2 ∧
        (stateOf 1 [3, 4]).commitEpoch_ ≤ st1.commitEpoch_ ∧
        st1.commitEpoch_ ≤ st2.commitEpoch_)) :=
  ⟨by decide, recvAck_commitEpoch_nondecreasing unitCodec (stateOf 1 [3, 4]) (by decide)⟩

/-- C4: for every state and every ack of the scheme whose sequence number is at
most the epoch, the call returns and leaves the epoch unchanged. -/
theorem recvAck_stale_commitEpoch_unchanged {κ Q H : Type} (C : HPACKCodec κ H)
    (st : QPACKScheme κ Q) (hst : st.WellTyped) (s : Nat) (hs : (s : Int) ≤ st.commitEpoch_) :
    ∃ st1, recvAck C st (some (Ack.qpackAck s)) = .ok st1 ∧
      st1.commitEpoch_ = st.commitEpoch_ := by
  obtain ⟨⟨h1, h2⟩, _⟩ := hst
  have hne : ¬ (s : Int) = wrapInt32 (st.commitEpoch_ + 1) := by
    unfold wrapInt32; omega
  exact ⟨_, rfl, (recvAckBody_of_ne C st hne).1⟩

/-- Witness for C4 at the state with epoch `3` and pending `5`, ack `2`. -/
theorem recvAck_stale_commitEpoch_unchanged_witness :
    (stateOf 3 [5]).WellTyped ∧ ((2 : Nat) : Int) ≤ (stateOf 3 [5]).commitEpoch_ ∧
    ∃ st1, recvAck unitCodec (stateOf 3 [5]) (some (Ack.qpackAck 2)) = .ok st1 ∧
      st1.commitEpoch_ = (stateOf 3 [5]).commitEpoch_ :=
  ⟨by decide, by decide,
    recvAck_stale_commitEpoch_unchanged unitCodec (stateOf 3 [5]) (by decide) 2 (by decide)⟩

/-- C5, as stated, fails: after the ack `0` the epoch is `0` and nothing is
pending; a second ack `0` is stale, yet it is inserted, and the pending deque
then holds `0`, which is not beyond the epoch. -/
theorem recvAck_stale_pending_counterexample :
    ∃ st st1, recvAcks unitCodec (initial () ()) [0] = .ok st ∧
      ((0 : Nat) : Int) ≤ st.commitEpoch_ ∧
      recvAck unitCodec st (some (Ack.qpackAck 0)) = .ok st1 ∧
      st.acks_ = [] ∧ st1.acks_ = [0] ∧ st1.acks_ ≠ st.acks_ ∧
      ¬ (∀ a ∈ st1.acks_, st1.commitEpoch_ + 1 < (a : Int)) :=
  ⟨_, _, rfl, by decide, rfl, rfl, rfl, by decide, by decide⟩

/-- C5, amended: for every state and every ack of the scheme whose sequence
number `s` is at most the epoch, the call returns, leaves the epoch unchanged
and inserts `s` into the pending deque at the position `lower_bound` gives: the
new deque is the old one with one more `s`, every old element kept in order, and
a sorted deque stays sorted. -/
theorem recvAck_stale_inserted {κ Q H : Type} (C : HPACKCodec κ H)
    (st : QPACKScheme κ Q) (hst : st.WellTyped) (s : Nat) (hs : (s : Int) ≤ st.commitEpoch_) :
    ∃ st1, recvAck C st (some (Ack.qpackAck s)) = .ok st1 ∧
      st1.commitEpoch_ = st.commitEpoch_ ∧
      st1.acks_ = dequeInsert st.acks_ (lower_bound st.acks_ s) s ∧
      st1.acks_.Perm (s :: st.acks_) ∧
      st1.acks_.length = st.acks_.length + 1 ∧
      st.acks_.Sublist st1.acks_ ∧
      (st.acks_.Sorted (· ≤ ·) → st1.acks_.Sorted (· ≤ ·)) := by
  obtain ⟨⟨h1, h2⟩, _⟩ := hst
  have hne : ¬ (s : Int) = wrapInt32 (st.commitEpoch_ + 1) := by
    unfold wrapInt32; omega
  obtain ⟨e1, e2, _⟩ := recvAckBody_of_ne C st hne
  refine ⟨_, rfl, e1, e2, ?_, ?_, ?_, ?_⟩
  · rw [e2]; exact dequeInsert_perm _ _ _
  · rw [e2]; exact length_dequeInsert _ _ _
  · rw [e2]; exact sublist_dequeInsert _ _ _
  · intro hsort; exact recvAckBody_sorted C st hsort s

/-- Witness for amended C5 at the state with epoch `3` and pending `5`, ack `2`. -/
theorem recvAck_stale_inserted_witness :
    (stateOf 3 [5]).WellTyped ∧ ((2 : Nat) : Int) ≤ (stateOf 3 [5]).commitEpoch_ ∧
    ∃ st1, recvAck unitCodec (stateOf 3 [5]) (some (Ack.qpackAck 2)) = .ok st1 ∧
      st1.commitEpoch_ = (stateOf 3 [5]).commitEpoch_ ∧
      st1.acks_ = dequeInsert (stateOf 3 [5]).acks_ (lower_bound (stateOf 3 [5]).acks_ 2) 2 ∧
      st1.acks_.Perm (2 :: (stateOf 3 [5]).acks_) ∧
      st1.acks_.length = (stateOf 3 [5]).acks_.length + 1 ∧
      (stateOf 3 [5]).acks_.Sublist st1.acks_ ∧
      ((stateOf 3 [5]).acks_.Sorted (· ≤ ·) → st1.acks_.Sorted (· ≤ ·)) :=
  ⟨by decide, by decide,
    recvAck_stale_inserted unitCodec (stateOf 3 [5]) (by decide) 2 (by decide)⟩

/-- C6, as stated, fails: after the ack `2` the deque holds `2`; a second ack
`2` finds it pending, yet it is inserted again and the deque holds `2` twice. -/
theorem recvAck_pending_duplicate_counterexample :
    ∃ st st1, recvAcks unitCodec (initial () ()) [2] = .ok st ∧
      2 ∈ st.acks_ ∧
      recvAck unitCodec st (some (Ack.qpackAck 2)) = .ok st1 ∧
      st.acks_ = [2] ∧ st1.acks_ = [2, 2] ∧ st1.acks_ ≠ st.acks_ ∧ ¬ st1.acks_.Nodup :=
  ⟨_, _, rfl, by decide, rfl, rfl, rfl, by decide, by decide⟩

/-- C6, amended: for every state and every ack of the scheme whose sequence
number `s` is already pending and differs from the epoch plus one, the call
returns and leaves the epoch unchanged, but inserts `s` once more: the deque
then holds `s` one more time than before and every other number as often as
before. -/
theorem recvAck_pending_duplicate_inserted {κ Q H : Type} (C : HPACKCodec κ H)
    (st : QPACKScheme κ Q) (hst : st.WellTyped) (s : Nat) (hmem : s ∈ st.acks_)
    (hne : (s : Int) ≠ st.commitEpoch_ + 1) :
    ∃ st1, recvAck C st (some (Ack.qpackAck s)) = .ok st1 ∧
      st1.commitEpoch_ = st.commitEpoch_ ∧
      st1.acks_ = dequeInsert st.acks_ (lower_bound st.acks_ s) s ∧
      st1.acks_.count s = st.acks_.count s + 1 ∧
      (∀ x, x ≠ s → st1.acks_.count x = st.acks_.count x) ∧
      st1.acks_.length = st.acks_.length + 1 := by
  obtain ⟨⟨h1, h2⟩, h3⟩ := hst
  have hne2 : ¬ (s : Int) = wrapInt32 (st.commitEpoch_ + 1) := by
    intro h; exact hne ((eq_wrap_iff (h3 s hmem) h1 h2).1 h)
  obtain ⟨e1, e2, _⟩ := recvAckBody_of_ne C st hne2
  refine ⟨_, rfl, e1, e2, ?_, ?_, ?_⟩
  · rw [e2, (dequeInsert_perm _ _ _).count_eq, List.count_cons_self]
  · intro x hx
    rw [e2, (dequeInsert_perm _ _ _).count_eq, List.count_cons_of_ne hx]
  · rw [e2]; exact length_dequeInsert _ _ _

/-- Witness for amended C6 at the state with epoch `-1` and pending `2`, ack `2`. -/
theorem recvAck_pending_duplicate_inserted_witness :
    (stateOf (-1) [2]).WellTyped ∧ 2 ∈ (stateOf (-1) [2]).acks_ ∧
    ((2 : Nat) : Int) ≠ (stateOf (-1) [2]).commitEpoch_ + 1 ∧
    ∃ st1, recvAck unitCodec (stateOf (-1) [2]) (some (Ack.qpackAck 2)) = .ok st1 ∧
      st1.commitEpoch_ = (stateOf (-1) [2]).commitEpoch_ ∧
      st1.acks_ = dequeInsert (stateOf (-1) [2]).acks_
        (lower_bound (stateOf (-1) [2]).acks_ 2) 2 ∧
      st1.acks_.count 2 = (stateOf (-1) [2]).acks_.count 2 + 1 ∧
      (∀ x, x ≠ 2 → st1.acks_.count x = (stateOf (-1) [2]).acks_.count x) ∧
      st1.acks_.length = (stateOf (-1) [2]).acks_.length + 1 :=
  ⟨by decide, by decide, by decide,
    recvAck_pending_duplicate_inserted unitCodec (stateOf (-1) [2]) (by decide) 2
      (by decide) (by decide)⟩

/-- C7, as stated, fails: after the acks `0, 0` the epoch is `0` and the deque
holds `0`, which is not beyond the epoch plus one; after the acks `2, 2` the
deque holds `2` twice. -/
theorem reachable_pending_counterexample :
    (∃ st, recvAcks unitCodec (initial () ()) [0, 0] = .ok st ∧
      st.commitEpoch_ = 0 ∧ st.acks_ = [0] ∧
      ¬ (∀ a ∈ st.acks_, st.commitEpoch_ + 1 < (a : Int))) ∧
    (∃ st, recvAcks unitCodec (initial () ()) [2, 2] = .ok st ∧
      st.acks_ = [2, 2] ∧ ¬ st.acks_.Nodup) :=
  ⟨⟨_, rfl, rfl, rfl, by decide⟩, ⟨_, rfl, rfl, by decide⟩⟩

/-- C7, amended: in every state reached from the initial one by acks with 16-bit
sequence numbers the pending deque is sorted ascending; when the sequence
numbers were pairwise distinct it is strictly ascending, has no duplicates, and
every element is greater than the epoch plus one. -/
theorem reachable_pending_sorted {κ Q H : Type} (C : HPACKCodec κ H) (client : κ) (queue : Q)
    (l : List Nat) (hb : ∀ s ∈ l, s < 65536) :
    ∃ st, recvAcks C (initial client queue) l = .ok st ∧
      st.acks_.Sorted (· ≤ ·) ∧
      (l.Nodup → st.acks_.Sorted (· < ·) ∧ st.acks_.Nodup ∧
        ∀ a ∈ st.acks_, st.commitEpoch_ + 1 < (a : Int)) := by
  refine ⟨_, recvAcks_eq_foldl C l _ hb, ?_, ?_⟩
  · exact foldl_recvAckBody_sorted C l _ (by simp [initial])
  · intro hd
    obtain ⟨_, _, hsort, _, hmem, _⟩ := ackInv_of_distinct C client queue l hd hb
    exact ⟨hsort, hsort.nodup, fun a ha => ((hmem a).1 ha).2⟩

/-- Witness for amended C7 at the acks `4, 0, 2, 1`. -/
theorem reachable_pending_sorted_witness :
    (∀ s ∈ [4, 0, 2, 1], s < 65536) ∧
    ∃ st, recvAcks unitCodec (initial () ()) [4, 0, 2, 1] = .ok st ∧
      st.acks_.Sorted (· ≤ ·) ∧
      ([4, 0, 2, 1].Nodup → st.acks_.Sorted (· < ·) ∧ st.acks_.Nodup ∧
        ∀ a ∈ st.acks_, st.commitEpoch_ + 1 < (a : Int)) :=
  ⟨by decide, reachable_pending_sorted unitCodec () () [4, 0, 2, 1] (by decide)⟩

/-- C8, as stated, fails: from the initial state the ack `1` does not move the
epoch, which stays `-1` through the acks `1, 3, 2, 4`, all four left pending. -/
theorem recvAck_trace_from_one_counterexample :
    ∃ s1 s2 s3 s4,
      recvAck unitCodec (initial () ()) (getAck 1) = .ok s1 ∧
      s1.commitEpoch_ = -1 ∧ s1.acks_ = [1] ∧ s1.commitEpoch_ ≠ 1 ∧
      recvAck unitCodec s1 (getAck 3) = .ok s2 ∧
      s2.commitEpoch_ = -1 ∧ s2.acks_ = [1, 3] ∧
      recvAck unitCodec s2 (getAck 2) = .ok s3 ∧
      s3.commitEpoch_ = -1 ∧ s3.acks_ = [1, 2, 3] ∧
      recvAck unitCodec s3 (getAck 4) = .ok s4 ∧
      s4.commitEpoch_ = -1 ∧ s4.acks_ = [1, 2, 3, 4] ∧ s4.commitEpoch_ ≠ 4 ∧ s4.acks_ ≠ [] :=
  ⟨_, _, _, _, rfl, rfl, rfl, by decide, rfl, rfl, rfl, rfl, rfl, rfl, rfl, rfl, rfl,
    by decide, by decide⟩

/-- C8, amended: from the initial state, with the ack `0` delivered first and
then the acks `1, 3, 2, 4`: after `0` the epoch is `0`; after `1` it is `1`; after
`3` the deque is `[3]` and the epoch still `1`; after `2` the epoch is `3` (the
loop started at `2` and drained the pending `3`); after `4` the epoch is `4` and
the deque is empty. -/
theorem recvAck_trace_from_zero {κ Q H : Type} (C : HPACKCodec κ H) (client : κ) (queue : Q) :
    ∃ s0 s1 s2 s3 s4,
      recvAck C (initial client queue) (getAck 0) = .ok s0 ∧
      s0.commitEpoch_ = 0 ∧ s0.acks_ = [] ∧
      recvAck C s0 (getAck 1) = .ok s1 ∧
      s1.commitEpoch_ = 1 ∧ s1.acks_ = [] ∧
      recvAck C s1 (getAck 3) = .ok s2 ∧
      s2.commitEpoch_ = 1 ∧ s2.acks_ = [3] ∧
      recvAck C s2 (getAck 2) = .ok s3 ∧
      drainAcks 2 s2.acks_ = (3, []) ∧
      s3.commitEpoch_ = 3 ∧ s3.acks_ = [] ∧
      recvAck C s3 (getAck 4) = .ok s4 ∧
      s4.commitEpoch_ = 4 ∧ s4.acks_ = [] :=
  ⟨_, _, _, _, _, rfl, rfl, rfl, rfl, rfl, rfl, rfl, rfl, rfl, rfl, rfl, rfl, rfl, rfl, rfl, rfl⟩

/-! ## Claims about encode and decode -/

lemma encodeAll_eq_codecResults {κ Q H : Type} (C : HPACKCodec κ H)
    (calls : List (Bool × List H)) :
    ∀ (st : QPACKScheme κ Q) (stats : SimStats),
      encodeAll C st stats calls =
        (codecResults C st.client_ calls).map (fun r => ({ allowOOO := !r.2 }, r.1)) := by
  induction calls with
  | nil => intro st stats; rfl
  | cons call rest ih =>
    intro st stats
    simp only [encodeAll, codecResults, List.map_cons]
    rw [ih]
    rfl

lemma codecResults_scripted {H : Type} (calls : List (List H × Bool)) :
    codecResults (scriptedCodec H) (calls.map Prod.snd)
        (calls.map (fun c => (false, c.1))) =
      calls.map (fun c => ([], c.2)) := by
  induction calls with
  | nil => rfl
  | cons call rest ih =>
    simp only [List.map_cons, codecResults]
    rw [show ((scriptedCodec H).encode (call.2 :: rest.map Prod.snd) call.1).1 =
      rest.map Prod.snd from rfl, ih]
    rfl

/-- C9: for every `encode` call and every codec, the returned flag `allowOOO` is
false exactly when the codec reported an eviction (it is the negation of the
indicator), and the returned block is the codec's block; over a sequence of
calls the flags are the negated indicators in order, in particular for a codec
that reports a scripted list of indicators. -/
theorem encode_allowOOO_not_eviction {κ Q H : Type} (C : HPACKCodec κ H) (st : QPACKScheme κ Q)
    (newPacket : Bool) (allHeaders : List H) (stats : SimStats)
    (calls : List (Bool × List H)) (sst : QPACKScheme (List Bool) Q)
    (script : List (List H × Bool)) :
    ((encode C st newPacket allHeaders stats).1.1.allowOOO = false ↔
      (C.encode st.client_ allHeaders).2.2 = true) ∧
    (encode C st newPacket allHeaders stats).1.1.allowOOO =
      !(C.encode st.client_ allHeaders).2.2 ∧
    (encode C st newPacket allHeaders stats).1.2 = (C.encode st.client_ allHeaders).2.1 ∧
    (encodeAll C st stats calls).map (fun f => f.1.allowOOO) =
      (codecResults C st.client_ calls).map (fun r => !r.2) ∧
    (encodeAll C st stats calls).map (fun f => f.2) =
      (codecResults C st.client_ calls).map (fun r => r.1) ∧
    (encodeAll (scriptedCodec H) { sst with client_ := script.map Prod.snd } stats
        (script.map (fun c => (false, c.1)))).map (fun f => f.1.allowOOO) =
      script.map (fun c => !c.2) := by
  refine ⟨?_, rfl, rfl, ?_, ?_, ?_⟩
  · show (!(C.encode st.client_ allHeaders).2.2) = false ↔ _
    cases (C.encode st.client_ allHeaders).2.2 <;> simp
  · rw [encodeAll_eq_codecResults, List.map_map]; rfl
  · rw [encodeAll_eq_codecResults, List.map_map]; rfl
  · rw [encodeAll_eq_codecResults]
    show List.map _ (List.map _ (codecResults (scriptedCodec H) (script.map Prod.snd) _)) = _
    rw [codecResults_scripted, List.map_map, List.map_map]
    rfl

lemma readBE16_of_bytes {b0 b1 : Nat} (h0 : b0 < 256) (h1 : b1 < 256) :
    readBE16 b0 b1 = 256 * b0 + b1 := by
  unfold readBE16; rw [Nat.mod_eq_of_lt h0, Nat.mod_eq_of_lt h1]; omega

/-- C10: for every received block of at least two bytes, `decode` returns, and
the delivery queue it leaves is the old queue after one `enqueueHeaderBlock`
call with sequence number `256 * b0 + b1`, the block without its first two
bytes, the block length minus two, and the `allowOOO` of the flags; on a queue
that records its calls exactly that one call is appended. -/
theorem decode_enqueues_once {κ Q CB : Type} (SQ : HPACKQueue Q CB) (K : SimStreamingCallback CB)
    (st : QPACKScheme κ Q) (rst : QPACKScheme κ (List EnqueueCall)) (flags : FrameFlags)
    (block : List Nat) (stats : SimStats) (callback : CB)
    (hlen : 2 ≤ block.length) (hbytes : ∀ b ∈ block, b < 256) :
    (∃ r, decode SQ K st flags block stats callback = .ok r ∧
      r.1.serverQueue_ =
        (SQ.enqueueHeaderBlock st.serverQueue_ (256 * block.getD 0 0 + block.getD 1 0)
          (block.drop 2) (block.length - 2)
          (K.setSeqn callback (256 * block.getD 0 0 + block.getD 1 0)) flags.allowOOO).1) ∧
    (∃ r, decode (recordingQueue CB) K rst flags block stats callback = .ok r ∧
      r.1.serverQueue_ = rst.serverQueue_ ++
        [{ seqn := 256 * block.getD 0 0 + block.getD 1 0, block := block.drop 2,
           len := block.length - 2, oooOk := flags.allowOOO }]) := by
  match block, hlen, hbytes with
  | b0 :: b1 :: rest, _, hbytes =>
    have h0 : b0 < 256 := hbytes b0 (by simp)
    have h1 : b1 < 256 := hbytes b1 (by simp)
    have hr := readBE16_of_bytes h0 h1
    constructor
    · refine ⟨_, rfl, ?_⟩
      simp [hr]
    · refine ⟨_, rfl, ?_⟩
      simp [hr, recordingQueue]

/-- Witness for C10 at the block `1, 2, 9, 8, 7` with `allowOOO` set. -/
theorem decode_enqueues_once_witness :
    2 ≤ [1, 2, 9, 8, 7].length ∧ (∀ b ∈ [1, 2, 9, 8, 7], b < 256) ∧
    ((∃ r, decode (recordingQueue Unit) unitCallback recordingState { allowOOO := true }
        [1, 2, 9, 8, 7] zeroStats () = .ok r ∧
      r.1.serverQueue_ =
        ((recordingQueue Unit).enqueueHeaderBlock recordingState.serverQueue_
          (256 * [1, 2, 9, 8, 7].getD 0 0 + [1, 2, 9, 8, 7].getD 1 0)
          ([1, 2, 9, 8, 7].drop 2) ([1, 2, 9, 8, 7].length - 2)
          (unitCallback.setSeqn () (256 * [1, 2, 9, 8, 7].getD 0 0 + [1, 2, 9, 8, 7].getD 1 0))
          ({ allowOOO := true } : FrameFlags).allowOOO).1) ∧
    (∃ r, decode (recordingQueue Unit) unitCallback recordingState { allowOOO := true }
        [1, 2, 9, 8, 7] zeroStats () = .ok r ∧
      r.1.serverQueue_ = recordingState.serverQueue_ ++
        [{ seqn := 256 * [1, 2, 9, 8, 7].getD 0 0 + [1, 2, 9, 8, 7].getD 1 0,
           block := [1, 2, 9, 8, 7].drop 2,
           len := [1, 2, 9, 8, 7].length - 2,
           oooOk := ({ allowOOO := true } : FrameFlags).allowOOO }])) :=
  ⟨by decide, by decide,
    decode_enqueues_once (recordingQueue Unit) unitCallback recordingState recordingState
      { allowOOO := true } [1, 2, 9, 8, 7] zeroStats () (by decide) (by decide)⟩

/-! ## Claims about the fatal checks -/

/-- C11: `recvAck` fails a check exactly when the ack pointer is null or the ack
is not a `QPACKAck`; for every `QPACKAck`, whatever its sequence number and
whatever the state, and for every ack made by `getAck`, the call returns a
state. -/
theorem recvAck_aborts_iff {κ Q H : Type} (C : HPACKCodec κ H) (st : QPACKScheme κ Q)
    (ack : Option Ack) (s : Nat) :
    ((∃ err, recvAck C st ack = .error err) ↔ (ack = none ∨ ack = some Ack.otherAck)) ∧
    recvAck C st none = .error CheckFailure.ackIsNull ∧
    recvAck C st (some Ack.otherAck) = .error CheckFailure.ackIsNotQPACKAck ∧
    recvAck C st (some (Ack.qpackAck s)) = .ok (recvAckBody C st s) ∧
    (∃ st1, recvAck C st (getAck s) = .ok st1) := by
  refine ⟨?_, rfl, rfl, rfl, ⟨_, rfl⟩⟩
  constructor
  · rintro ⟨err, herr⟩
    match ack, herr with
    | none, _ => exact Or.inl rfl
    | some Ack.otherAck, _ => exact Or.inr rfl
    | some (Ack.qpackAck n), herr => simp [recvAck] at herr
  · rintro (h | h)
    · subst h; exact ⟨_, rfl⟩
    · subst h; exact ⟨_, rfl⟩

/-- C12: the destructor fails its check exactly when the queue's buffered-byte
count is not zero, and completes exactly when it is zero. -/
theorem destroy_aborts_iff {κ Q CB : Type} (SQ : HPACKQueue Q CB) (st : QPACKScheme κ Q) :
    (destroy SQ st = .error CheckFailure.queuedBytesNonZero ↔
      SQ.getQueuedBytes st.serverQueue_ ≠ 0) ∧
    (destroy SQ st = .ok () ↔ SQ.getQueuedBytes st.serverQueue_ = 0) ∧
    ((∃ err, destroy SQ st = .error err) ↔ SQ.getQueuedBytes st.serverQueue_ ≠ 0) := by
  unfold destroy
  by_cases h : SQ.getQueuedBytes st.serverQueue_ = 0
  · simp [h]
  · simp [h]

/-! ## The queue statistic -/

/-- C16: for every `decode` call on a block of at least two bytes, the call
returns and `maxQueueBufferBytes` afterwards is the maximum of its value before
and of the queue's buffered-byte count after the enqueue; it does not decrease,
it is at least that count, and the other counters are unchanged. -/
theorem decode_maxQueueBufferBytes {κ Q CB : Type} (SQ : HPACKQueue Q CB)
    (K : SimStreamingCallback CB) (st : QPACKScheme κ Q) (flags : FrameFlags)
    (block : List Nat) (stats : SimStats) (callback : CB) (hlen : 2 ≤ block.length) :
    ∃ r, decode SQ K st flags block stats callback = .ok r ∧
      r.2.1.maxQueueBufferBytes =
        max stats.maxQueueBufferBytes (SQ.getQueuedBytes r.1.serverQueue_) ∧
      stats.maxQueueBufferBytes ≤ r.2.1.maxQueueBufferBytes ∧
      SQ.getQueuedBytes r.1.serverQueue_ ≤ r.2.1.maxQueueBufferBytes ∧
      r.2.1.uncompressed = stats.uncompressed ∧ r.2.1.compressed = stats.compressed := by
  match block, hlen with
  | b0 :: b1 :: rest, _ =>
    refine ⟨_, rfl, ?_⟩
    simp only []
    split
    · rename_i h
      exact ⟨(max_eq_right (le_of_lt h)).symm, le_of_lt h, le_refl _, rfl, rfl⟩
    · rename_i h
      exact ⟨(max_eq_left (not_lt.1 h)).symm, le_refl _, not_lt.1 h, rfl, rfl⟩

/-- Witness for C16: the queue already buffers 10 bytes, the statistic stands at
4, and a block of two prefix bytes and three payload bytes arrives. -/
theorem decode_maxQueueBufferBytes_witness :
    2 ≤ [0, 7, 9, 8, 7].length ∧
    ∃ r, decode (countingQueue Unit) unitCallback (queuedState 10) { allowOOO := false }
        [0, 7, 9, 8, 7] { uncompressed := 0, compressed := 0, maxQueueBufferBytes := 4 } () =
          .ok r ∧
      r.2.1.maxQueueBufferBytes =
        max ({ uncompressed := 0, compressed := 0, maxQueueBufferBytes := 4 } :
          SimStats).maxQueueBufferBytes ((countingQueue Unit).getQueuedBytes r.1.serverQueue_) ∧
      ({ uncompressed := 0, compressed := 0, maxQueueBufferBytes := 4 } :
          SimStats).maxQueueBufferBytes ≤ r.2.1.maxQueueBufferBytes ∧
      (countingQueue Unit).getQueuedBytes r.1.serverQueue_ ≤ r.2.1.maxQueueBufferBytes ∧
      r.2.1.uncompressed =
        ({ uncompressed := 0, compressed := 0, maxQueueBufferBytes := 4 } :
          SimStats).uncompressed ∧
      r.2.1.compressed =
        ({ uncompressed := 0, compressed := 0, maxQueueBufferBytes := 4 } :
          SimStats).compressed :=
  ⟨by decide,
    decode_maxQueueBufferBytes (countingQueue Unit) unitCallback (queuedState 10)
      { allowOOO := false } [0, 7, 9, 8, 7]
      { uncompressed := 0, compressed := 0, maxQueueBufferBytes := 4 } () (by decide)⟩

/-! ## The drained run, the count of acks and the upper end of the range -/

/-- Started at a 16-bit number `s`, the loop removes a prefix `s+1, ..., s+k` of
the deque, ends with the epoch `s + k`, and leaves a deque that does not start
with `s + k + 1`. -/
lemma drainAcks_run (acks : List Nat) :
    ∀ s : Nat, s < 65536 → (∀ a ∈ acks, a < 65536) →
      ∃ k : Nat, acks = List.range' (s + 1) k ++ (drainAcks (s : Int) acks).2 ∧
        (drainAcks (s : Int) acks).1 = (s : Int) + (k : Int) ∧
        (drainAcks (s : Int) acks).2.head? ≠ some (s + k + 1) := by
  induction acks with
  | nil => intro s _ _; exact ⟨0, by simp [drainAcks]⟩
  | cons a rest ih =>
    intro s hs hb
    have ha := hb a (List.mem_cons_self _ _)
    by_cases h : (a : Int) = wrapInt32 ((s : Int) + 1)
    · have hsucc : (a : Int) = (s : Int) + 1 := eq_succ_of_eq_wrap (by omega) (by omega) h
      have hnat : a = s + 1 := by omega
      obtain ⟨k, h1, h2, h3⟩ := ih a ha (fun x hx => hb x (List.mem_cons_of_mem _ hx))
      refine ⟨k + 1, ?_, ?_, ?_⟩
      · rw [drainAcks_cons_eq rest h, List.range'_succ, List.cons_append, ← hnat]
        exact congrArg (List.cons a) h1
      · rw [drainAcks_cons_eq rest h, h2]; push_cast; omega
      · rw [drainAcks_cons_eq rest h]
        have e : s + (k + 1) + 1 = a + k + 1 := by omega
        rw [e]; exact h3
    · refine ⟨0, ?_, ?_, ?_⟩
      · rw [drainAcks_cons_ne rest h]; simp
      · rw [drainAcks_cons_ne rest h]; simp
      · rw [drainAcks_cons_ne rest h]
        intro hc
        apply h
        have : a = s + 0 + 1 := by simpa using hc
        rw [wrapInt32_of_range (by omega) (by omega)]
        omega

/-- The loop raises the epoch by the number of elements it removes. -/
lemma drainAcks_sum (acks : List Nat) :
    ∀ e : Int, -2147483648 ≤ e → e ≤ 2147483647 →
      (drainAcks e acks).1 + ((drainAcks e acks).2.length : Int) =
        e + (acks.length : Int) := by
  induction acks with
  | nil => intro e _ _; simp [drainAcks]
  | cons a rest ih =>
    intro e h1 h2
    by_cases h : (a : Int) = wrapInt32 (e + 1)
    · have hr := wrapInt32_range (e + 1)
      have hsucc := eq_succ_of_eq_wrap h1 h2 h
      rw [drainAcks_cons_eq rest h, ih (a : Int) (by omega) (by omega)]
      simp only [List.length_cons]; push_cast; omega
    · rw [drainAcks_cons_ne rest h]

/-- One call raises the epoch plus the length of the deque by one. -/
lemma recvAckBody_sum {κ Q H : Type} (C : HPACKCodec κ H) (st : QPACKScheme κ Q)
    (hst : st.WellTyped) (s : Nat) :
    (recvAckBody C st s).commitEpoch_ + 1 + ((recvAckBody C st s).acks_.length : Int) =
      st.commitEpoch_ + 1 + (st.acks_.length : Int) + 1 := by
  obtain ⟨⟨h1, h2⟩, _⟩ := hst
  by_cases h : (s : Int) = wrapInt32 (st.commitEpoch_ + 1)
  · obtain ⟨e1, e2, _⟩ := recvAckBody_of_eq C st h
    have hr := wrapInt32_range (st.commitEpoch_ + 1)
    have hsucc := eq_succ_of_eq_wrap h1 h2 h
    have := drainAcks_sum st.acks_ (s : Int) (by omega) (by omega)
    rw [e1, e2]; omega
  · obtain ⟨e1, e2, _⟩ := recvAckBody_of_ne C st h
    rw [e1, e2, length_dequeInsert]; push_cast; omega

lemma foldl_recvAckBody_sum {κ Q H : Type} (C : HPACKCodec κ H) (l : List Nat) :
    ∀ st : QPACKScheme κ Q, st.WellTyped → (∀ s ∈ l, s < 65536) →
      (l.foldl (recvAckBody C) st).commitEpoch_ + 1 +
          ((l.foldl (recvAckBody C) st).acks_.length : Int) =
        st.commitEpoch_ + 1 + (st.acks_.length : Int) + (l.length : Int) := by
  induction l with
  | nil => intro st _ _; simp
  | cons s rest ih =>
    intro st h hb
    rw [List.foldl_cons, ih _ (recvAckBody_wellTyped C st h (hb s (List.mem_cons_self _ _)))
      (fun x hx => hb x (List.mem_cons_of_mem _ hx)), recvAckBody_sum C st h s]
    simp only [List.length_cons]; push_cast; omega

/-- One call with a 16-bit sequence number keeps the epoch at or below 65535. -/
lemma recvAckBody_commitEpoch_le {κ Q H : Type} (C : HPACKCodec κ H) (st : QPACKScheme κ Q)
    (hst : st.WellTyped) (hle : st.commitEpoch_ ≤ 65535) {s : Nat} (hs : s < 65536) :
    (recvAckBody C st s).commitEpoch_ ≤ 65535 := by
  obtain ⟨_, h3⟩ := hst
  by_cases h : (s : Int) = wrapInt32 (st.commitEpoch_ + 1)
  · rw [(recvAckBody_of_eq C st h).1]
    exact drainAcks_fst_le st.acks_ 65535
      (fun a ha => by have := h3 a ha; omega) (s : Int) (by omega)
  · rw [(recvAckBody_of_ne C st h).1]; exact hle

lemma foldl_recvAckBody_commitEpoch_le {κ Q H : Type} (C : HPACKCodec κ H) (l : List Nat) :
    ∀ st : QPACKScheme κ Q, st.WellTyped → st.commitEpoch_ ≤ 65535 → (∀ s ∈ l, s < 65536) →
      (l.foldl (recvAckBody C) st).commitEpoch_ ≤ 65535 := by
  induction l with
  | nil => intro st _ h _; exact h
  | cons s rest ih =>
    intro st h hle hb
    have hs := hb s (List.mem_cons_self _ _)
    rw [List.foldl_cons]
    exact ih _ (recvAckBody_wellTyped C st h hs) (recvAckBody_commitEpoch_le C st h hle hs)
      (fun x hx => hb x (List.mem_cons_of_mem _ hx))

lemma initial_wellTyped {κ Q : Type} (client : κ) (queue : Q) :
    (initial client queue).WellTyped := by
  refine ⟨⟨by simp [initial], by simp [initial]⟩, ?_⟩
  intro a ha; simp [initial] at ha

/-- Whatever the sequence numbers, the driver returns and a sorted deque stays
sorted. -/
lemma recvAcks_sorted {κ Q H : Type} (C : HPACKCodec κ H) (l : List Nat) :
    ∀ st : QPACKScheme κ Q, st.acks_.Sorted (· ≤ ·) →
      ∃ st1, recvAcks C st l = .ok st1 ∧ st1.acks_.Sorted (· ≤ ·) := by
  induction l with
  | nil => intro st h; exact ⟨st, rfl, h⟩
  | cons s rest ih =>
    intro st h
    obtain ⟨st1, h1, h2⟩ := ih (recvAckBody C st (s % 65536)) (recvAckBody_sorted C st h _)
    exact ⟨st1, h1, h2⟩

/-! ## Claims about the two branches of recvAck -/

/-- C13: for every state with a strictly ascending pending deque and every ack
whose 16-bit sequence number `s` is the epoch plus one, the call returns; for
some `k` the old deque is `s+1, ..., s+k` followed by the new deque, which does
not start with `s+k+1` (the prefix is the longest such run and exactly it is
removed); the new epoch is `s + k`; and the new deque is empty or its first and
smallest element differs from the new epoch plus one. -/
theorem recvAck_next_drains_run {κ Q H : Type} (C : HPACKCodec κ H) (st : QPACKScheme κ Q)
    (hst : st.WellTyped) (hsort : st.acks_.Sorted (· < ·)) (s : Nat) (hs : s < 65536)
    (hnext : (s : Int) = st.commitEpoch_ + 1) :
    ∃ st1 k, recvAck C st (some (Ack.qpackAck s)) = .ok st1 ∧
      st.acks_ = List.range' (s + 1) k ++ st1.acks_ ∧
      st1.acks_.head? ≠ some (s + k + 1) ∧
      st1.acks_ = st.acks_.drop k ∧
      st1.commitEpoch_ = (s : Int) + (k : Int) ∧
      (st1.acks_ = [] ∨ ∃ a rest, st1.acks_ = a :: rest ∧ (∀ x ∈ rest, a < x) ∧
        (a : Int) ≠ st1.commitEpoch_ + 1) := by
  obtain ⟨⟨h1, h2⟩, h3⟩ := hst
  have h : (s : Int) = wrapInt32 (st.commitEpoch_ + 1) := (eq_wrap_iff hs h1 h2).2 hnext
  obtain ⟨e1, e2, _⟩ := recvAckBody_of_eq C st h
  obtain ⟨k, r1, r2, r3⟩ := drainAcks_run st.acks_ s hs h3
  rw [← e1] at r2
  rw [← e2] at r1 r3
  have hsort1 : (recvAckBody C st s).acks_.Sorted (· < ·) := by
    rw [e2]; exact hsort.sublist (drainAcks_snd_suffix st.acks_ (s : Int)).sublist
  refine ⟨_, k, rfl, r1, r3, ?_, r2, ?_⟩
  · have hd := congrArg (List.drop k) r1
    rw [List.drop_left' (List.length_range' _ _ _)] at hd
    exact hd.symm
  · match hacks : (recvAckBody C st s).acks_ with
    | [] => exact Or.inl rfl
    | a :: rest =>
      right
      rw [hacks] at hsort1 r3
      refine ⟨a, rest, rfl, (List.sorted_cons.1 hsort1).1, ?_⟩
      intro hc
      apply r3
      have : a = s + k + 1 := by omega
      rw [this]; rfl

/-- Witness for C13 at the state with epoch `1` and pending `3, 4, 6`, ack `2`. -/
theorem recvAck_next_drains_run_witness :
    (stateOf 1 [3, 4, 6]).WellTyped ∧ (stateOf 1 [3, 4, 6]).acks_.Sorted (· < ·) ∧
    2 < 65536 ∧ ((2 : Nat) : Int) = (stateOf 1 [3, 4, 6]).commitEpoch_ + 1 ∧
    ∃ st1 k, recvAck unitCodec (stateOf 1 [3, 4, 6]) (some (Ack.qpackAck 2)) = .ok st1 ∧
      (stateOf 1 [3, 4, 6]).acks_ = List.range' (2 + 1) k ++ st1.acks_ ∧
      st1.acks_.head? ≠ some (2 + k + 1) ∧
      st1.acks_ = (stateOf 1 [3, 4, 6]).acks_.drop k ∧
      st1.commitEpoch_ = ((2 : Nat) : Int) + (k : Int) ∧
      (st1.acks_ = [] ∨ ∃ a rest, st1.acks_ = a :: rest ∧ (∀ x ∈ rest, a < x) ∧
        (a : Int) ≠ st1.commitEpoch_ + 1) :=
  ⟨by decide, by decide, by decide, by decide,
    recvAck_next_drains_run unitCodec (stateOf 1 [3, 4, 6]) (by decide) (by decide) 2
      (by decide) (by decide)⟩

/-- C14: for every state with a sorted pending deque and every ack whose 16-bit
sequence number `s` exceeds the epoch plus one and is not pending, the call
returns, leaves the epoch and the codec untouched (no `setCommitEpoch` call),
and the new deque is sorted and holds exactly the old elements, in their order,
and `s` once. -/
theorem recvAck_gap_inserts_sorted {κ Q H : Type} (C : HPACKCodec κ H) (st : QPACKScheme κ Q)
    (hst : st.WellTyped) (hsort : st.acks_.Sorted (· ≤ ·)) (s : Nat) (hs : s < 65536)
    (hgap : st.commitEpoch_ + 1 < (s : Int)) (hnew : s ∉ st.acks_) :
    ∃ st1, recvAck C st (some (Ack.qpackAck s)) = .ok st1 ∧
      st1.commitEpoch_ = st.commitEpoch_ ∧
      st1.client_ = st.client_ ∧
      st1.acks_.Sorted (· ≤ ·) ∧
      st1.acks_.Perm (s :: st.acks_) ∧
      (∀ x, x ∈ st1.acks_ ↔ x = s ∨ x ∈ st.acks_) ∧
      st.acks_.Sublist st1.acks_ ∧
      st1.acks_.count s = 1 ∧
      st1.acks_ = dequeInsert st.acks_ (lower_bound st.acks_ s) s := by
  obtain ⟨⟨h1, h2⟩, _⟩ := hst
  have hne : ¬ (s : Int) = wrapInt32 (st.commitEpoch_ + 1) := by
    unfold wrapInt32; omega
  obtain ⟨e1, e2, e3⟩ := recvAckBody_of_ne C st hne
  refine ⟨_, rfl, e1, e3, recvAckBody_sorted C st hsort s, ?_, ?_, ?_, ?_, e2⟩
  · rw [e2]; exact dequeInsert_perm _ _ _
  · intro x; rw [e2]; exact mem_dequeInsert _ _ _ _
  · rw [e2]; exact sublist_dequeInsert _ _ _
  · rw [e2, (dequeInsert_perm _ _ _).count_eq, List.count_cons_self,
      List.count_eq_zero_of_not_mem hnew]

/-- Witness for C14 with the logging codec: log `[1]`, epoch `1`, pending `3, 6`,
ack `5`. -/
theorem recvAck_gap_inserts_sorted_witness :
    (loggedState [1] 1 [3, 6]).WellTyped ∧ (loggedState [1] 1 [3, 6]).acks_.Sorted (· ≤ ·) ∧
    5 < 65536 ∧ (loggedState [1] 1 [3, 6]).commitEpoch_ + 1 < ((5 : Nat) : Int) ∧
    5 ∉ (loggedState [1] 1 [3, 6]).acks_ ∧
    ∃ st1, recvAck (loggingCodec Unit) (loggedState [1] 1 [3, 6]) (some (Ack.qpackAck 5)) =
        .ok st1 ∧
      st1.commitEpoch_ = (loggedState [1] 1 [3, 6]).commitEpoch_ ∧
      st1.client_ = (loggedState [1] 1 [3, 6]).client_ ∧
      st1.acks_.Sorted (· ≤ ·) ∧
      st1.acks_.Perm (5 :: (loggedState [1] 1 [3, 6]).acks_) ∧
      (∀ x, x ∈ st1.acks_ ↔ x = 5 ∨ x ∈ (loggedState [1] 1 [3, 6]).acks_) ∧
      (loggedState [1] 1 [3, 6]).acks_.Sublist st1.acks_ ∧
      st1.acks_.count 5 = 1 ∧
      st1.acks_ = dequeInsert (loggedState [1] 1 [3, 6]).acks_
        (lower_bound (loggedState [1] 1 [3, 6]).acks_ 5) 5 :=
  ⟨by decide, by decide, by decide, by decide, by decide,
    recvAck_gap_inserts_sorted (loggingCodec Unit) (loggedState [1] 1 [3, 6]) (by decide)
      (by decide) 5 (by decide) (by decide) (by decide)⟩

/-! ## Claims about the range and the count -/

/-- C17: in every state reached from the initial one by 16-bit acks the epoch
lies in `-1..65535`; and in any state with epoch `65535` the 32-bit sum
`commitEpoch_ + 1` is `65536`, so a call with any 16-bit sequence number returns,
leaves the epoch at `65535` and the codec untouched, and only inserts the number
into the pending deque. -/
theorem commitEpoch_range_no_wrap {κ Q H : Type} (C : HPACKCodec κ H) (client : κ) (queue : Q)
    (l : List Nat) (hl : ∀ x ∈ l, x < 65536) (st : QPACKScheme κ Q)
    (htop : st.commitEpoch_ = 65535) (s : Nat) (hs : s < 65536) :
    (∃ stl, recvAcks C (initial client queue) l = .ok stl ∧
      -1 ≤ stl.commitEpoch_ ∧ stl.commitEpoch_ ≤ 65535) ∧
    wrapInt32 (st.commitEpoch_ + 1) = 65536 ∧
    (∃ st1, recvAck C st (some (Ack.qpackAck s)) = .ok st1 ∧
      st1.commitEpoch_ = 65535 ∧
      st1.client_ = st.client_ ∧
      st1.acks_ = dequeInsert st.acks_ (lower_bound st.acks_ s) s ∧
      st1.acks_.Perm (s :: st.acks_)) := by
  have hw : wrapInt32 (st.commitEpoch_ + 1) = 65536 := by
    rw [htop]; unfold wrapInt32; omega
  refine ⟨⟨_, recvAcks_eq_foldl C l _ hl, ?_, ?_⟩, hw, ?_⟩
  · exact foldl_recvAckBody_commitEpoch_ge C l _ (initial_wellTyped client queue) hl
  · exact foldl_recvAckBody_commitEpoch_le C l _ (initial_wellTyped client queue)
      (by simp [initial]) hl
  · have hne : ¬ (s : Int) = wrapInt32 (st.commitEpoch_ + 1) := by rw [hw]; omega
    obtain ⟨e1, e2, e3⟩ := recvAckBody_of_ne C st hne
    refine ⟨_, rfl, by rw [e1, htop], e3, e2, ?_⟩
    rw [e2]; exact dequeInsert_perm _ _ _

/-- Witness for C17: acks `0, 2, 1` from the initial state, and the ack `0` in
the state with epoch `65535` and nothing pending. -/
theorem commitEpoch_range_no_wrap_witness :
    (∀ x ∈ [0, 2, 1], x < 65536) ∧ (stateOf 65535 []).commitEpoch_ = 65535 ∧ 0 < 65536 ∧
    ((∃ stl, recvAcks unitCodec (initial () ()) [0, 2, 1] = .ok stl ∧
      -1 ≤ stl.commitEpoch_ ∧ stl.commitEpoch_ ≤ 65535) ∧
    wrapInt32 ((stateOf 65535 []).commitEpoch_ + 1) = 65536 ∧
    (∃ st1, recvAck unitCodec (stateOf 65535 []) (some (Ack.qpackAck 0)) = .ok st1 ∧
      st1.commitEpoch_ = 65535 ∧
      st1.client_ = (stateOf 65535 []).client_ ∧
      st1.acks_ = dequeInsert (stateOf 65535 []).acks_
        (lower_bound (stateOf 65535 []).acks_ 0) 0 ∧
      st1.acks_.Perm (0 :: (stateOf 65535 []).acks_))) :=
  ⟨by decide, by decide, by decide,
    commitEpoch_range_no_wrap unitCodec () () [0, 2, 1] (by decide) (stateOf 65535 [])
      (by decide) 0 (by decide)⟩

/-- C18: after any `m` acks with 16-bit sequence numbers from the initial state,
repeated and stale numbers included, the epoch plus one plus the number of
pending elements is `m`; and in every state each such call raises that sum by
exactly one. -/
theorem recvAcks_count_acks {κ Q H : Type} (C : HPACKCodec κ H) (client : κ) (queue : Q)
    (l : List Nat) (hl : ∀ x ∈ l, x < 65536) (st : QPACKScheme κ Q) (hst : st.WellTyped)
    (s : Nat) (hs : s < 65536) :
    (∃ stl, recvAcks C (initial client queue) l = .ok stl ∧
      stl.commitEpoch_ + 1 + (stl.acks_.length : Int) = (l.length : Int)) ∧
    (∃ st1, recvAck C st (some (Ack.qpackAck s)) = .ok st1 ∧ st1.WellTyped ∧
      st1.commitEpoch_ + 1 + (st1.acks_.length : Int) =
        st.commitEpoch_ + 1 + (st.acks_.length : Int) + 1) := by
  refine ⟨⟨_, recvAcks_eq_foldl C l _ hl, ?_⟩,
    ⟨_, rfl, recvAckBody_wellTyped C st hst hs, recvAckBody_sum C st hst s⟩⟩
  rw [foldl_recvAckBody_sum C l _ (initial_wellTyped client queue) hl]
  simp [initial]

/-- Witness for C18: the acks `0, 0, 2, 1, 2` from the initial state, and the
ack `1` in the state with epoch `0` and pending `0, 2`. -/
theorem recvAcks_count_acks_witness :
    (∀ x ∈ [0, 0, 2, 1, 2], x < 65536) ∧ (stateOf 0 [0, 2]).WellTyped ∧ 1 < 65536 ∧
    ((∃ stl, recvAcks unitCodec (initial () ()) [0, 0, 2, 1, 2] = .ok stl ∧
      stl.commitEpoch_ + 1 + (stl.acks_.length : Int) =
        (([0, 0, 2, 1, 2] : List Nat).length : Int)) ∧
    (∃ st1, recvAck unitCodec (stateOf 0 [0, 2]) (some (Ack.qpackAck 1)) = .ok st1 ∧
      st1.WellTyped ∧
      st1.commitEpoch_ + 1 + (st1.acks_.length : Int) =
        (stateOf 0 [0, 2]).commitEpoch_ + 1 + ((stateOf 0 [0, 2]).acks_.length : Int) + 1)) :=
  ⟨by decide, by decide, by decide,
    recvAcks_count_acks unitCodec () () [0, 0, 2, 1, 2] (by decide) (stateOf 0 [0, 2])
      (by decide) 1 (by decide)⟩

/-- C20: for every state whose pending deque is sorted in non-decreasing order
and every ack of the scheme, whatever its sequence number, the call returns and
the deque is again sorted; so it is along every sequence of acks from that state,
and in every state reached from the initial one. -/
theorem recvAck_preserves_sorted {κ Q H : Type} (C : HPACKCodec κ H) (st : QPACKScheme κ Q)
    (hsort : st.acks_.Sorted (· ≤ ·)) (s : Nat) (l : List Nat) (client : κ) (queue : Q) :
    (∃ st1, recvAck C st (some (Ack.qpackAck s)) = .ok st1 ∧ st1.acks_.Sorted (· ≤ ·)) ∧
    (∃ st2, recvAcks C st l = .ok st2 ∧ st2.acks_.Sorted (· ≤ ·)) ∧
    (∃ st3, recvAcks C (initial client queue) l = .ok st3 ∧ st3.acks_.Sorted (· ≤ ·)) :=
  ⟨⟨_, rfl, recvAckBody_sorted C st hsort s⟩, recvAcks_sorted C l st hsort,
    recvAcks_sorted C l _ (by simp [initial])⟩

/-- Witness for C20: the stale ack `1` in the state with epoch `4` and pending
`0, 2, 2, 7`, and the acks `3, 70000, 3, 0` from there and from the initial
state. -/
theorem recvAck_preserves_sorted_witness :
    (stateOf 4 [0, 2, 2, 7]).acks_.Sorted (· ≤ ·) ∧
    ((∃ st1, recvAck unitCodec (stateOf 4 [0, 2, 2, 7]) (some (Ack.qpackAck 1)) = .ok st1 ∧
      st1.acks_.Sorted (· ≤ ·)) ∧
    (∃ st2, recvAcks unitCodec (stateOf 4 [0, 2, 2, 7]) [3, 70000, 3, 0] = .ok st2 ∧
      st2.acks_.Sorted (· ≤ ·)) ∧
    (∃ st3, recvAcks unitCodec (initial () ()) [3, 70000, 3, 0] = .ok st3 ∧
      st3.acks_.Sorted (· ≤ ·))) :=
  ⟨by decide,
    recvAck_preserves_sorted unitCodec (stateOf 4 [0, 2, 2, 7]) (by decide) 1
      [3, 70000, 3, 0] () ()⟩

/-! ## The epoch handed to the encoder -/

/-- With the logging codec, one call either leaves log and epoch as they were or
raises the epoch and appends the new epoch to the log. -/
lemma recvAckBody_logging {Q H : Type} (st : QPACKScheme (List Int) Q) (hst : st.WellTyped)
    (s : Nat) :
    ((recvAckBody (loggingCodec H) st s).client_ = st.client_ ∧
      (recvAckBody (loggingCodec H) st s).commitEpoch_ = st.commitEpoch_) ∨
    ((recvAckBody (loggingCodec H) st s).client_ =
        st.client_ ++ [(recvAckBody (loggingCodec H) st s).commitEpoch_] ∧
      st.commitEpoch_ < (recvAckBody (loggingCodec H) st s).commitEpoch_) := by
  obtain ⟨⟨h1, h2⟩, _⟩ := hst
  by_cases h : (s : Int) = wrapInt32 (st.commitEpoch_ + 1)
  · right
    obtain ⟨e1, _, e3⟩ := recvAckBody_of_eq (loggingCodec H) st h
    have hr := wrapInt32_range (st.commitEpoch_ + 1)
    have hsucc := eq_succ_of_eq_wrap h1 h2 h
    have hge := drainAcks_fst_ge st.acks_ (s : Int) (by omega) (by omega)
    refine ⟨?_, by rw [e1]; omega⟩
    rw [e3, e1]; rfl
  · left
    obtain ⟨e1, _, e3⟩ := recvAckBody_of_ne (loggingCodec H) st h
    exact ⟨e3, e1⟩

lemma foldl_recvAckBody_logging {Q H : Type} (l : List Nat) :
    ∀ st : QPACKScheme (List Int) Q, st.WellTyped → (∀ x ∈ l, x < 65536) →
      (st.client_.getLast? = some st.commitEpoch_ ∨
        (st.client_ = [] ∧ st.commitEpoch_ = -1)) →
      ((l.foldl (recvAckBody (loggingCodec H)) st).client_.getLast? =
          some (l.foldl (recvAckBody (loggingCodec H)) st).commitEpoch_ ∨
        ((l.foldl (recvAckBody (loggingCodec H)) st).client_ = [] ∧
          (l.foldl (recvAckBody (loggingCodec H)) st).commitEpoch_ = -1)) := by
  induction l with
  | nil => intro st _ _ h; exact h
  | cons s rest ih =>
    intro st hst hl h
    rw [List.foldl_cons]
    apply ih _ (recvAckBody_wellTyped _ st hst (hl s (List.mem_cons_self _ _)))
      (fun x hx => hl x (List.mem_cons_of_mem _ hx))
    rcases recvAckBody_logging (H := H) st hst s with ⟨e1, e2⟩ | ⟨e1, _⟩
    · rw [e1, e2]; exact h
    · left; rw [e1]; simp

/-- C15: with a codec that logs its `setCommitEpoch` calls, one `recvAck` call
appends at most one value to the log; it appends one exactly when it changes
the epoch, and the value is the epoch after the loop; so in every state reached
from the initial one (empty log) by 16-bit acks the last logged value is the
current epoch, or the log is empty and the epoch is `-1`. -/
theorem recvAck_setCommitEpoch_in_step {Q H : Type} (st : QPACKScheme (List Int) Q)
    (hst : st.WellTyped) (s : Nat) (queue : Q) (l : List Nat) (hl : ∀ x ∈ l, x < 65536) :
    (∃ st1, recvAck (loggingCodec H) st (some (Ack.qpackAck s)) = .ok st1 ∧
      (st1.client_ = st.client_ ∨ st1.client_ = st.client_ ++ [st1.commitEpoch_]) ∧
      (st1.client_ = st.client_ ++ [st1.commitEpoch_] ↔
        st1.commitEpoch_ ≠ st.commitEpoch_) ∧
      (st1.client_ = st.client_ ↔ st1.commitEpoch_ = st.commitEpoch_)) ∧
    (∃ stl, recvAcks (loggingCodec H) (initial [] queue) l = .ok stl ∧
      (stl.client_.getLast? = some stl.commitEpoch_ ∨
        (stl.client_ = [] ∧ stl.commitEpoch_ = -1))) := by
  constructor
  · refine ⟨_, rfl, ?_⟩
    rcases recvAckBody_logging (H := H) st hst s with ⟨e1, e2⟩ | ⟨e1, hlt⟩
    · refine ⟨Or.inl e1, ?_, ?_⟩
      · constructor
        · intro h
          have := congrArg List.length (e1.symm.trans h)
          simp at this
        · intro h; exact absurd e2 h
      · exact ⟨fun _ => e2, fun _ => e1⟩
    · refine ⟨Or.inr e1, ?_, ?_⟩
      · exact ⟨fun _ => ne_of_gt hlt, fun _ => e1⟩
      · constructor
        · intro h
          have := congrArg List.length (h.symm.trans e1)
          simp at this
        · intro h; omega
  · refine ⟨_, recvAcks_eq_foldl (loggingCodec H) l _ hl, ?_⟩
    exact foldl_recvAckBody_logging l _ (initial_wellTyped [] queue) hl
      (Or.inr ⟨rfl, rfl⟩)

/-- Witness for C15: the ack `2` in the state with log `[1]`, epoch `1` and
pending `3, 6`, and the acks `1, 0, 0, 3, 2` from the initial state. -/
theorem recvAck_setCommitEpoch_in_step_witness :
    (loggedState [1] 1 [3, 6]).WellTyped ∧ (∀ x ∈ [1, 0, 0, 3, 2], x < 65536) ∧
    ((∃ st1, recvAck (loggingCodec Unit) (loggedState [1] 1 [3, 6]) (some (Ack.qpackAck 2)) =
        .ok st1 ∧
      (st1.client_ = (loggedState [1] 1 [3, 6]).client_ ∨
        st1.client_ = (loggedState [1] 1 [3, 6]).client_ ++ [st1.commitEpoch_]) ∧
      (st1.client_ = (loggedState [1] 1 [3, 6]).client_ ++ [st1.commitEpoch_] ↔
        st1.commitEpoch_ ≠ (loggedState [1] 1 [3, 6]).commitEpoch_) ∧
      (st1.client_ = (loggedState [1] 1 [3, 6]).client_ ↔
        st1.commitEpoch_ = (loggedState [1] 1 [3, 6]).commitEpoch_)) ∧
    (∃ stl, recvAcks (loggingCodec Unit) (initial [] ()) [1, 0, 0, 3, 2] = .ok stl ∧
      (stl.client_.getLast? = some stl.commitEpoch_ ∨
        (stl.client_ = [] ∧ stl.commitEpoch_ = -1)))) :=
  ⟨by decide, by decide,
    recvAck_setCommitEpoch_in_step (loggedState [1] 1 [3, 6]) (by decide) 2 ()
      [1, 0, 0, 3, 2] (by decide)⟩

/-! ## Order of two fresh acknowledgments -/

/-- Two states related to lists with the same members have the same epoch and
the same deque. -/
lemma ackInv_unique {κ Q : Type} {seen1 seen2 : List Nat} {st1 st2 : QPACKScheme κ Q}
    (i1 : AckInv seen1 st1) (i2 : AckInv seen2 st2) (hmem : ∀ x, x ∈ seen1 ↔ x ∈ seen2) :
    st1.commitEpoch_ = st2.commitEpoch_ ∧ st1.acks_ = st2.acks_ := by
  obtain ⟨a1, _, asort, alow, amem, asucc⟩ := i1
  obtain ⟨b1, _, bsort, blow, bmem, bsucc⟩ := i2
  have he : st1.commitEpoch_ = st2.commitEpoch_ := by
    apply le_antisymm
    · by_contra hc
      have hk := alow (st2.commitEpoch_ + 1).toNat (by omega)
      exact bsucc _ ((hmem _).1 hk) (by omega)
    · by_contra hc
      have hk := blow (st1.commitEpoch_ + 1).toNat (by omega)
      exact asucc _ ((hmem _).2 hk) (by omega)
  refine ⟨he, ?_⟩
  apply List.eq_of_perm_of_sorted _ asort bsort
  rw [List.perm_ext_iff_of_nodup asort.nodup bsort.nodup]
  intro x
  rw [amem x, bmem x, hmem x, he]

/-- A state with an epoch in `-1..65535` and a strictly ascending deque beyond
the epoch plus one is related to the numbers up to the epoch followed by the
deque. -/
lemma ackInv_of_state {κ Q : Type} (st : QPACKScheme κ Q) (h1 : -1 ≤ st.commitEpoch_)
    (h2 : st.commitEpoch_ ≤ 65535) (hsort : st.acks_.Sorted (· < ·))
    (hgt : ∀ x ∈ st.acks_, st.commitEpoch_ + 1 < (x : Int)) :
    AckInv (List.range (st.commitEpoch_ + 1).toNat ++ st.acks_) st := by
  refine ⟨h1, h2, hsort, ?_, ?_, ?_⟩
  · intro k hk
    exact List.mem_append_left _ (List.mem_range.2 (by omega))
  · intro x
    rw [List.mem_append, List.mem_range]
    constructor
    · intro hx; exact ⟨Or.inr hx, hgt x hx⟩
    · rintro ⟨hx | hx, hlt⟩
      · omega
      · exact hx
  · intro x hx
    rw [List.mem_append, List.mem_range] at hx
    rcases hx with hx | hx
    · omega
    · have := hgt x hx; omega

/-- Inserting two new values into a strictly ascending deque gives the same
deque in either order. -/
lemma dequeInsert_comm {xs : List Nat} (hsort : xs.Sorted (· < ·)) {a b : Nat} (hab : a ≠ b)
    (ha : a ∉ xs) (hb : b ∉ xs) :
    dequeInsert (dequeInsert xs (lower_bound xs a) a)
        (lower_bound (dequeInsert xs (lower_bound xs a) a) b) b =
      dequeInsert (dequeInsert xs (lower_bound xs b) b)
        (lower_bound (dequeInsert xs (lower_bound xs b) b) a) a := by
  have sa := dequeInsert_lower_bound_sorted_lt hsort ha
  have sb := dequeInsert_lower_bound_sorted_lt hsort hb
  have hb2 : b ∉ dequeInsert xs (lower_bound xs a) a := by
    rw [mem_dequeInsert]; rintro (h | h)
    · exact hab h.symm
    · exact hb h
  have ha2 : a ∉ dequeInsert xs (lower_bound xs b) b := by
    rw [mem_dequeInsert]; rintro (h | h)
    · exact hab h
    · exact ha h
  apply List.eq_of_perm_of_sorted _ (dequeInsert_lower_bound_sorted_lt sa hb2)
    (dequeInsert_lower_bound_sorted_lt sb ha2)
  have p1 := (dequeInsert_perm (dequeInsert xs (lower_bound xs a) a)
    (lower_bound (dequeInsert xs (lower_bound xs a) a) b) b).trans
    ((dequeInsert_perm xs (lower_bound xs a) a).cons b)
  have p2 := (dequeInsert_perm (dequeInsert xs (lower_bound xs b) b)
    (lower_bound (dequeInsert xs (lower_bound xs b) b) a) a).trans
    ((dequeInsert_perm xs (lower_bound xs b) b).cons a)
  exact p1.trans ((List.Perm.swap a b xs).trans p2.symm)

/-- C19: for every state whose pending deque is strictly ascending with every
element beyond the epoch plus one, and every two distinct 16-bit sequence numbers
above the epoch and not pending, the four calls return, and acknowledging the
first and then the second leaves the same epoch and the same pending deque as
acknowledging them in the other order. -/
theorem recvAck_fresh_commute {κ Q H : Type} (C : HPACKCodec κ H) (st : QPACKScheme κ Q)
    (hst : st.WellTyped) (hsort : st.acks_.Sorted (· < ·))
    (hgt : ∀ x ∈ st.acks_, st.commitEpoch_ + 1 < (x : Int))
    (a b : Nat) (ha : a < 65536) (hb : b < 65536) (hab : a ≠ b)
    (hae : st.commitEpoch_ < (a : Int)) (hbe : st.commitEpoch_ < (b : Int))
    (han : a ∉ st.acks_) (hbn : b ∉ st.acks_) :
    ∃ sa sab sb sba,
      recvAck C st (some (Ack.qpackAck a)) = .ok sa ∧
      recvAck C sa (some (Ack.qpackAck b)) = .ok sab ∧
      recvAck C st (some (Ack.qpackAck b)) = .ok sb ∧
      recvAck C sb (some (Ack.qpackAck a)) = .ok sba ∧
      sab.commitEpoch_ = sba.commitEpoch_ ∧ sab.acks_ = sba.acks_ := by
  refine ⟨_, _, _, _, rfl, rfl, rfl, rfl, ?_⟩
  obtain ⟨⟨h1, h2⟩, h3⟩ := hst
  by_cases hneg : -1 ≤ st.commitEpoch_
  · have inv := ackInv_of_state st hneg (by omega) hsort hgt
    have hseen : ∀ x ∈ List.range (st.commitEpoch_ + 1).toNat ++ st.acks_, x < 65536 := by
      intro x hx
      rw [List.mem_append, List.mem_range] at hx
      rcases hx with hx | hx
      · omega
      · exact h3 x hx
    have hnota : a ∉ List.range (st.commitEpoch_ + 1).toNat ++ st.acks_ := by
      rw [List.mem_append, List.mem_range]; rintro (h | h)
      · omega
      · exact han h
    have hnotb : b ∉ List.range (st.commitEpoch_ + 1).toNat ++ st.acks_ := by
      rw [List.mem_append, List.mem_range]; rintro (h | h)
      · omega
      · exact hbn h
    have ia := ackInv_step C _ st inv hseen ha hnota
    have ib := ackInv_step C _ st inv hseen hb hnotb
    have iab := ackInv_step C _ _ ia
      (fun x hx => by
        rcases List.mem_append.1 hx with h | h
        · exact hseen x h
        · rw [List.mem_singleton.1 h]; exact ha) hb
      (by
        intro hx
        rcases List.mem_append.1 hx with h | h
        · exact hnotb h
        · exact hab (List.mem_singleton.1 h).symm)
    have iba := ackInv_step C _ _ ib
      (fun x hx => by
        rcases List.mem_append.1 hx with h | h
        · exact hseen x h
        · rw [List.mem_singleton.1 h]; exact hb) ha
      (by
        intro hx
        rcases List.mem_append.1 hx with h | h
        · exact hnota h
        · exact hab (List.mem_singleton.1 h))
    apply ackInv_unique iab iba
    intro x
    simp only [List.mem_append, List.mem_singleton]
    tauto
  · have hwrap : wrapInt32 (st.commitEpoch_ + 1) = st.commitEpoch_ + 1 :=
      wrapInt32_of_range (by omega) (by omega)
    have hna : ¬ (a : Int) = wrapInt32 (st.commitEpoch_ + 1) := by rw [hwrap]; omega
    have hnb : ¬ (b : Int) = wrapInt32 (st.commitEpoch_ + 1) := by rw [hwrap]; omega
    obtain ⟨a1, a2, _⟩ := recvAckBody_of_ne C st hna
    obtain ⟨b1, b2, _⟩ := recvAckBody_of_ne C st hnb
    have hnb2 : ¬ (b : Int) = wrapInt32 ((recvAckBody C st a).commitEpoch_ + 1) := by
      rw [a1]; exact hnb
    have hna2 : ¬ (a : Int) = wrapInt32 ((recvAckBody C st b).commitEpoch_ + 1) := by
      rw [b1]; exact hna
    obtain ⟨ab1, ab2, _⟩ := recvAckBody_of_ne C (recvAckBody C st a) hnb2
    obtain ⟨ba1, ba2, _⟩ := recvAckBody_of_ne C (recvAckBody C st b) hna2
    refine ⟨by rw [ab1, ba1, a1, b1], ?_⟩
    rw [ab2, ba2, a2, b2]
    exact dequeInsert_comm hsort hab han hbn

/-- Witness for C19: epoch `1`, pending `4, 5`, and the acks `3` and `2`. -/
theorem recvAck_fresh_commute_witness :
    (stateOf 1 [4, 5]).WellTyped ∧ (stateOf 1 [4, 5]).acks_.Sorted (· < ·) ∧
    (∀ x ∈ (stateOf 1 [4, 5]).acks_, (stateOf 1 [4, 5]).commitEpoch_ + 1 < (x : Int)) ∧
    3 < 65536 ∧ 2 < 65536 ∧ 3 ≠ 2 ∧
    (stateOf 1 [4, 5]).commitEpoch_ < ((3 : Nat) : Int) ∧
    (stateOf 1 [4, 5]).commitEpoch_ < ((2 : Nat) : Int) ∧
    3 ∉ (stateOf 1 [4, 5]).acks_ ∧ 2 ∉ (stateOf 1 [4, 5]).acks_ ∧
    ∃ sa sab sb sba,
      recvAck unitCodec (stateOf 1 [4, 5]) (some (Ack.qpackAck 3)) = .ok sa ∧
      recvAck unitCodec sa (some (Ack.qpackAck 2)) = .ok sab ∧
      recvAck unitCodec (stateOf 1 [4, 5]) (some (Ack.qpackAck 2)) = .ok sb ∧
      recvAck unitCodec sb (some (Ack.qpackAck 3)) = .ok sba ∧
      sab.commitEpoch_ = sba.commitEpoch_ ∧ sab.acks_ = sba.acks_ :=
  ⟨by decide, by decide, by decide, by decide, by decide, by decide, by decide, by decide,
    by decide, by decide,
    recvAck_fresh_commute unitCodec (stateOf 1 [4, 5]) (by decide) (by decide) (by decide)
      3 2 (by decide) (by decide) (by decide) (by decide) (by decide) (by decide) (by decide)⟩

end QPACKScheme

end proxygen.compress
